import Mathlib

/-!
# Markupbook section store

A verification development for `markdown/store.go`: the heading pattern
`h2Re`, the parser `SplitSections` and the store operations that splice the
notebook text.

Text is a list of characters.  The pattern only tells apart `#`, the five
whitespace characters of the class `\s` and the line feed, each of which is
one byte of the UTF-8 encoding, so offsets into the list play the part of the
byte offsets of the Go code and slices of the list are slices of the string.
File-system failures are outside the model: the directory can always be
created and the file can always be read and written, the only special case
being the file that does not exist yet.
-/

namespace Markupbook

/-- A document or a piece of one. -/
abbrev Text := List Char

/-- The line feed, the only line terminator the pattern knows. -/
def LF : Char := Char.ofNat 10

/-- The class `\s` of Go regular expressions: tab, line feed, form feed,
carriage return and space. -/
def isSpace (c : Char) : Bool :=
  c = Char.ofNat 9 || c = LF || c = Char.ofNat 12 || c = Char.ofNat 13 || c = ' '

/-- One entry of `FindAllStringSubmatchIndex`: `m0` and `m1` delimit the whole
match, `m2` and `m3` the capture group (the title). -/
structure Loc where
  m0 : Nat
  m1 : Nat
  m2 : Nat
  m3 : Nat
deriving DecidableEq, Repr

/-- Where the left-to-right search for `(?m)^##\s+(.*)$` stands.
* `bol`: at the start of a line (`^` holds here), nothing matched yet;
* `mid`: inside a line, nothing matched;
* `hash1 p`: a `#` was read at the line start `p`;
* `hash2 p`: `##` was read from the line start `p`;
* `ws p`: `##` and at least one character of `\s+` were read, the run of
  whitespace is still open;
* `title p q`: the whitespace run ended at `q`, the group `(.*)` is open. -/
inductive Scan where
  | bol
  | mid
  | hash1 (p : Nat)
  | hash2 (p : Nat)
  | ws (p : Nat)
  | title (p q : Nat)
deriving DecidableEq, Repr

/-- Reads the character `c` found at offset `i`: the next state and the match
completed by this character, if any.  `\s+` is greedy and whatever follows it
can always be matched by `(.*)$`, so the run of whitespace is never given back;
`(.*)` stops at the first line feed, where `$` holds. -/
def step (st : Scan) (i : Nat) (c : Char) : Scan × List Loc :=
  match st with
  | .bol => if c = '#' then (.hash1 i, []) else if c = LF then (.bol, []) else (.mid, [])
  | .mid => if c = LF then (.bol, []) else (.mid, [])
  | .hash1 p => if c = '#' then (.hash2 p, []) else if c = LF then (.bol, []) else (.mid, [])
  | .hash2 p => if isSpace c then (.ws p, []) else (.mid, [])
  | .ws p => if isSpace c then (.ws p, []) else (.title p i, [])
  | .title p q => if c = LF then (.bol, [⟨p, i, q, i⟩]) else (.title p q, [])

/-- The match still open when the text ends at offset `n`: `$` holds at the end
of the text. -/
def flush (st : Scan) (n : Nat) : List Loc :=
  match st with
  | .ws p => [⟨p, n, n, n⟩]
  | .title p q => [⟨p, n, q, n⟩]
  | _ => []

/-- All matches found from the state `st` in the text `s` that starts at
offset `i`. -/
def scanFrom : Scan → Nat → Text → List Loc
  | st, i, [] => flush st i
  | st, i, c :: cs => (step st i c).2 ++ scanFrom (step st i c).1 (i + 1) cs

/-- The index tuples of `h2Re.FindAllStringSubmatchIndex(md, -1)`: the
successive non-overlapping matches of `(?m)^##\s+(.*)$`, leftmost first. -/
def FindAllStringSubmatchIndex (md : Text) : List Loc :=
  scanFrom .bol 0 md

/-- The Go slice `md[a:b]`, for `a ≤ b ≤ len(md)`: the store never slices out
of this range (`span_bounds`), where the Go expression would stop the program. -/
def slice (md : Text) (a b : Nat) : Text :=
  (md.drop a).take (b - a)

/-- A section of the notebook. -/
structure Section where
  Title : Text
  Content : Text
deriving DecidableEq, Repr

/-- The loop of `SplitSections` over the matches: the title is the capture
group, the content runs from the end of the match to the start of the next
match, or to the end of the text after the last one. -/
def sectionsOf (md : Text) : List Loc → List Section
  | [] => []
  | m :: rest =>
    ⟨slice md m.m2 m.m3,
     slice md m.m1 (match rest with
       | [] => md.length
       | nx :: _ => nx.m0)⟩ :: sectionsOf md rest

/-- The parser `SplitSections`. -/
def SplitSections (md : Text) : List Section :=
  sectionsOf md (FindAllStringSubmatchIndex md)

/-- The store: the notebook file, `none` while it was never written. -/
structure Store where
  file : Option Text
deriving DecidableEq, Repr

/-- The errors the store operations return, named after their messages. -/
inductive StoreError where
  | notFound
  | noSections
  | sectionNotFound
  | etagMismatch
deriving DecidableEq, Repr

/-- Reads the whole notebook; a file that does not exist reads as the empty
text. -/
def ReadAll (s : Store) : Text :=
  match s.file with
  | none => []
  | some t => t

/-- Replaces the whole notebook. -/
def WriteAll (text : Text) (_s : Store) : Store :=
  ⟨some text⟩

/-- The titles of the sections, in order. -/
def ListPages (s : Store) : Except StoreError (List Text) × Store :=
  (.ok ((SplitSections (ReadAll s)).map Section.Title), s)

/-- The loop of `LoadPage`: the content of the first section with the title. -/
def lookupContent (title : Text) : List Section → Option Text
  | [] => none
  | sec :: rest => if sec.Title = title then some sec.Content else lookupContent title rest

/-- The content of the first section titled `title`. -/
def LoadPage (title : Text) (s : Store) : Except StoreError Text × Store :=
  match lookupContent title (SplitSections (ReadAll s)) with
  | some c => (.ok c, s)
  | none => (.error .notFound, s)

/-- The heading start of the `i`-th match, `matches[i][0]`; the index is in
range whenever the store reads it, since there are as many matches as sections
(`SplitSections_length`). -/
def startAt (ms : List Loc) (i : Nat) : Nat :=
  match ms[i]? with
  | some m => m.m0
  | none => 0

/-- The end of the span of the `i`-th section: the start of the next match, or
the length of the text when there is none. -/
def endAt (ms : List Loc) (n i : Nat) : Nat :=
  if i + 1 < ms.length then startAt ms (i + 1) else n

/-- The loop of `SavePage` and `RenameSection` over the sections, from index
`i`: the index of the first section titled `oldTitle`. -/
def findTitle (oldTitle : Text) : Nat → List Section → Option Nat
  | _, [] => none
  | i, sec :: rest => if sec.Title = oldTitle then some i else findTitle oldTitle (i + 1) rest

/-- The heading marker and a space, `"## "`. -/
def marker : Text := ['#', '#', ' ']

/-- Replaces the first section titled `oldTitle` by a new heading and body. -/
def SavePage (oldTitle newTitle html : Text) (s : Store) : Except StoreError Unit × Store :=
  let md := ReadAll s
  let sections := SplitSections md
  if sections.length = 0 then (.error .noSections, s)
  else
    let ms := FindAllStringSubmatchIndex md
    match findTitle oldTitle 0 sections with
    | none => (.error .sectionNotFound, s)
    | some i =>
      let start := startAt ms i
      let stop := endAt ms md.length i
      let newBlock := marker ++ newTitle ++ [LF, LF] ++ html ++ [LF]
      (.ok (), WriteAll (md.take start ++ newBlock ++ md.drop stop) s)

/-- The loop of `RenameSection` that looks for the end of the heading line: the
offset of the first line feed in the text `md[j:]`, if there is one. -/
def lineEndLoop : Text → Nat → Option Nat
  | [], _ => none
  | c :: cs, j => if c = LF then some j else lineEndLoop cs (j + 1)

/-- The value of `lineEnd` in `RenameSection`: the offset the loop found, or
the length of the text when it found none. -/
def lineEndFrom (md : Text) (start : Nat) : Nat :=
  match lineEndLoop (md.drop start) start with
  | some j => j
  | none => md.length

/-- Rewrites the heading line of the first section titled `oldTitle`. -/
def RenameSection (oldTitle newTitle : Text) (s : Store) : Except StoreError Unit × Store :=
  let md := ReadAll s
  let ms := FindAllStringSubmatchIndex md
  let sections := SplitSections md
  match findTitle oldTitle 0 sections with
  | none => (.error .sectionNotFound, s)
  | some i =>
    let start := startAt ms i
    let lineEnd := lineEndFrom md start
    (.ok (), WriteAll (md.take start ++ (marker ++ newTitle) ++ md.drop lineEnd) s)

/-- The table `hextable` of `encoding/hex`, indexed by a nibble. -/
def hexDigit (n : Nat) : Char :=
  "0123456789abcdef".toList.getD n '0'

/-- The function `hex.EncodeToString`: two lowercase digits for each byte, the
high nibble first. -/
def EncodeToString (bytes : List (Fin 256)) : Text :=
  bytes.flatMap fun v => [hexDigit (v.val / 16), hexDigit (v.val % 16)]

/-- The value of `sha256.Sum256`, an array of 32 bytes. -/
abbrev Digest := Fin 32 → Fin 256

/-- The ETag of the notebook: the hexadecimal form of the digest of its text.
The digest function of the standard library is the parameter `Sum256`. -/
def ComputeETag (Sum256 : Text → Digest) (s : Store) : Except StoreError Text × Store :=
  (.ok (EncodeToString (List.ofFn (Sum256 (ReadAll s)))), s)

/-- Saves the page only if the current ETag is the expected one; an empty
expected ETag saves unconditionally. -/
def SavePageIfMatch (Sum256 : Text → Digest) (oldTitle newTitle html expectedETag : Text)
    (s : Store) : Except StoreError Unit × Store :=
  if expectedETag ≠ [] then
    match ComputeETag Sum256 s with
    | (.error e, s1) => (.error e, s1)
    | (.ok etag, s1) =>
      if etag ≠ expectedETag then (.error .etagMismatch, s1)
      else SavePage oldTitle newTitle html s1
  else SavePage oldTitle newTitle html s

/-- The placeholder body of a new page, `<p><em>New page.</em></p>`. -/
def newPageBody : Text := "<p><em>New page.</em></p>".toList

/-- Appends a new section; an empty notebook first gets the title line
`# Notebook`. -/
def InsertNewSection (newTitle : Text) (s : Store) : Except StoreError Unit × Store :=
  let md := ReadAll s
  let stub := [LF, LF] ++ marker ++ newTitle ++ [LF, LF] ++ newPageBody ++ [LF]
  if md.length > 0 then (.ok (), WriteAll (md ++ stub) s)
  else (.ok (), WriteAll ("# Notebook".toList ++ [LF, LF] ++ stub) s)

/-- A notebook with a title line and the three sections `A`, `B`, `C`. -/
def demoDoc : Text :=
  "# Notebook\n\n## A\n\n<p>a</p>\n## B\n\n<p>b</p>\n## C\n\n<p>c</p>\n".toList

/-- The store that holds `demoDoc`. -/
def demoStore : Store := ⟨some demoDoc⟩

/-! ## Auxiliary definitions for the proofs -/

/-- The matches completed while reading `s` from offset `i`, the open match
left aside. -/
def emits : Scan → Nat → Text → List Loc
  | _, _, [] => []
  | st, i, c :: cs => (step st i c).2 ++ emits (step st i c).1 (i + 1) cs

/-- The state of the search after reading `s` from offset `i`. -/
def after : Scan → Nat → Text → Scan
  | st, _, [] => st
  | st, i, c :: cs => after (step st i c).1 (i + 1) cs

/-- A lower bound for the start of the matches still to come: the start of the
match a state has open, the current offset at a line start, the next offset
inside a line. -/
def Scan.low (st : Scan) (i : Nat) : Nat :=
  match st with
  | .bol => i
  | .mid => i + 1
  | .hash1 p => p
  | .hash2 p => p
  | .ws p => p
  | .title p _ => p

/-- The offsets a state carries lie before the current offset. -/
def Scan.okAt (st : Scan) (i : Nat) : Prop :=
  match st with
  | .bol => True
  | .mid => True
  | .hash1 p => p < i
  | .hash2 p => p < i
  | .ws p => p < i
  | .title p q => p < q ∧ q ≤ i

/-- A match as the pattern produces it, inside `lo .. hi`. -/
def Loc.within (m : Loc) (lo hi : Nat) : Prop :=
  lo ≤ m.m0 ∧ m.m0 < m.m2 ∧ m.m2 ≤ m.m3 ∧ m.m3 = m.m1 ∧ m.m1 ≤ hi

/-- A match moved `k` characters to the right. -/
def Loc.shift (k : Nat) (m : Loc) : Loc :=
  ⟨m.m0 + k, m.m1 + k, m.m2 + k, m.m3 + k⟩

/-- A state moved `k` characters to the right. -/
def Scan.shift (k : Nat) : Scan → Scan
  | .bol => .bol
  | .mid => .mid
  | .hash1 p => .hash1 (p + k)
  | .hash2 p => .hash2 (p + k)
  | .ws p => .ws (p + k)
  | .title p q => .title (p + k) (q + k)

/-- Where a match found from the state `st` at offset `i` can start: at the
start of the open match, or at a later line start. -/
def Scan.startsAt (st : Scan) (i n : Nat) : Prop :=
  match st with
  | .bol => i ≤ n
  | .mid => i < n
  | .hash1 p => n = p ∨ i < n
  | .hash2 p => n = p ∨ i < n
  | .ws p => n = p ∨ i < n
  | .title p _ => n = p ∨ i < n

/-- The text begins with `##` and a whitespace character: a match starts at
its first character when that stands at a line start. -/
def StartsHeading (s : Text) : Prop :=
  ∃ c r, s = '#' :: '#' :: c :: r ∧ isSpace c = true

/-- The end of a content: the start of the next match, or `stop` when no match
follows. -/
def nextStart (stop : Nat) (rest : List Loc) : Nat :=
  match rest with
  | [] => stop
  | nx :: _ => nx.m0

/-- The loop of `SplitSections` with the end of the last content set to `stop`
instead of the length of the text. -/
def sectionsTo (md : Text) (stop : Nat) : List Loc → List Section
  | [] => []
  | m :: rest =>
    ⟨slice md m.m2 m.m3,
     slice md m.m1 (match rest with
       | [] => stop
       | nx :: _ => nx.m0)⟩ :: sectionsTo md stop rest

/-- The line starts with `##` followed by whitespace or by the end of the
line. -/
def headingAt : Text → Bool
  | ['#', '#'] => true
  | '#' :: '#' :: c :: _ => isSpace c
  | _ => false

/-- No line of the text starts with `##` followed by whitespace or by the end
of the line. -/
def NoHeadingLine (s : Text) : Prop :=
  ∀ l ∈ s.splitOn LF, headingAt l = false

instance (s : Text) : Decidable (NoHeadingLine s) := by
  unfold NoHeadingLine
  infer_instance

/-- The content of a section whose title ends where `rest` begins: `rest` up
to the next heading. -/
def headContent (rest : Text) : Text :=
  rest.take (nextStart rest.length (scanFrom .mid 0 rest))

/-- The sections that follow a section whose title ends where `rest` begins. -/
def tailSections (rest : Text) : List Section :=
  sectionsTo rest rest.length (scanFrom .mid 0 rest)

/-- The search has no match open that a line feed or the end of the text would
complete or extend. -/
def Scan.idle (st : Scan) : Prop :=
  st = .bol ∨ st = .mid ∨ ∃ p, st = .hash1 p

/-- A title as the store writes it: not empty, on one line, and not beginning
with whitespace. -/
def WellFormedTitle (t : Text) : Prop :=
  t ≠ [] ∧ LF ∉ t ∧ ∀ c ∈ t.head?, isSpace c = false

instance (t : Text) : Decidable (WellFormedTitle t) := by
  unfold WellFormedTitle
  infer_instance

/-- A piece of text between headings: empty or ended by a line feed, and
without heading line. -/
def QuietText (c : Text) : Prop :=
  (c = [] ∨ c.getLast? = some LF) ∧ NoHeadingLine c

instance (c : Text) : Decidable (QuietText c) := by
  unfold QuietText
  infer_instance

/-- The document made of a preamble and of blocks `"## " ++ title ++ "\n" ++
content`. -/
def buildDoc (pre : Text) (blocks : List (Text × Text)) : Text :=
  pre ++ (blocks.map fun b => marker ++ b.1 ++ [LF] ++ b.2).flatten

/-- The preamble of a text: everything before its first heading, the whole
text when it has none. -/
def preamble (md : Text) : Text :=
  md.take (nextStart md.length (FindAllStringSubmatchIndex md))

/-- The heading convention in the words of the specification: the line begins
with `##` and one space, and its title is the remainder of the line, as it
is. -/
def specTitle : Text → Option Text
  | '#' :: '#' :: ' ' :: t => some t
  | _ => none

/-- The titles the specification expects: one for each line of that form, in
the order of the lines. -/
def specTitles (md : Text) : List Text :=
  (md.splitOn LF).filterMap specTitle

/-- The heading convention of the pattern, line by line: the line begins with
`##` and a whitespace character, and its title is what follows the run of
whitespace. -/
def headingTitle : Text → Option Text
  | '#' :: '#' :: c :: r => if isSpace c then some ((c :: r).dropWhile isSpace) else none
  | _ => none

/-- The titles of the heading lines of a text, in the order of the lines. -/
def lineTitles (md : Text) : List Text :=
  (md.splitOn LF).filterMap headingTitle

/-- The line is `##` followed by whitespace only, or by nothing. -/
def bareMarker : Text → Bool
  | '#' :: '#' :: r => r.all isSpace
  | _ => false

/-- The titles of the sections of a text. -/
def titlesOf (md : Text) : List Text :=
  (SplitSections md).map Section.Title

/-- The Go slice `md[a:b]` with its run-time check: `none` stands for the
panic `slice bounds out of range`. -/
def sliceChecked (md : Text) (a b : Nat) : Option Text :=
  if a ≤ b ∧ b ≤ md.length then some (slice md a b) else none

/-- The loop of `SplitSections` with the run-time checks of its slices. -/
def sectionsOfChecked (md : Text) : List Loc → Option (List Section)
  | [] => some []
  | m :: rest =>
    match sliceChecked md m.m2 m.m3,
      sliceChecked md m.m1 (match rest with
        | [] => md.length
        | nx :: _ => nx.m0),
      sectionsOfChecked md rest with
    | some title, some content, some tail => some (⟨title, content⟩ :: tail)
    | _, _, _ => none

/-- The parser `SplitSections` with its run-time checks. -/
def SplitSectionsChecked (md : Text) : Option (List Section) :=
  sectionsOfChecked md (FindAllStringSubmatchIndex md)

/-- `SavePage` with the run-time checks of its index expressions
`matches[i]`, `matches[i+1]` and of its slices `md[:start]`, `md[end:]`. -/
def SavePageChecked (oldTitle newTitle html : Text) (s : Store) :
    Option (Except StoreError Unit × Store) :=
  let md := ReadAll s
  match SplitSectionsChecked md with
  | none => none
  | some sections =>
    if sections.length = 0 then some (.error .noSections, s)
    else
      let ms := FindAllStringSubmatchIndex md
      match findTitle oldTitle 0 sections with
      | none => some (.error .sectionNotFound, s)
      | some i =>
        match ms[i]?, (if i + 1 < ms.length then ms[i + 1]?.map Loc.m0 else some md.length) with
        | some m, some stop =>
          match sliceChecked md 0 m.m0, sliceChecked md stop md.length with
          | some head, some tail =>
            some (.ok (), WriteAll (head ++ (marker ++ newTitle ++ [LF, LF] ++ html ++ [LF]) ++
              tail) s)
          | _, _ => none
        | _, _ => none

/-- `RenameSection` with the run-time checks of its index expression
`matches[i]` and of its slices `md[:start]`, `md[lineEnd:]`; the loop for
`lineEnd` reads `md[j]` under the guard `j < len(md)`. -/
def RenameSectionChecked (oldTitle newTitle : Text) (s : Store) :
    Option (Except StoreError Unit × Store) :=
  let md := ReadAll s
  let ms := FindAllStringSubmatchIndex md
  match SplitSectionsChecked md with
  | none => none
  | some sections =>
    match findTitle oldTitle 0 sections with
    | none => some (.error .sectionNotFound, s)
    | some i =>
      match ms[i]? with
      | none => none
      | some m =>
        let lineEnd := lineEndFrom md m.m0
        match sliceChecked md 0 m.m0, sliceChecked md lineEnd md.length with
        | some head, some tail => some (.ok (), WriteAll (head ++ (marker ++ newTitle) ++ tail) s)
        | _, _ => none

/-- The text ends with a `##` marker at a line start that is followed by
whitespace only, or by nothing: a heading whose title is still to come. -/
def endsWithBareMarker (md : Text) : Bool :=
  match md.reverse.dropWhile isSpace with
  | ['#', '#'] => true
  | '#' :: '#' :: c :: _ => decide (c = LF)
  | _ => false

/-- The line begins with `##` and a whitespace character. -/
def markerLine : Text → Bool
  | '#' :: '#' :: c :: _ => isSpace c
  | _ => false

/-- No line of the text begins with `##` and a whitespace character, and no
line that a line feed ends is `##` alone. -/
def NoMarkerLine (md : Text) : Prop :=
  (∀ l ∈ md.splitOn LF, markerLine l = false) ∧
    ∀ l ∈ (md.splitOn LF).dropLast, l ≠ ['#', '#']

instance (md : Text) : Decidable (NoMarkerLine md) := by
  unfold NoMarkerLine
  infer_instance

/-! ## Lemmas -/

theorem scanFrom_append (a b : Text) (st : Scan) (i : Nat) :
    scanFrom st i (a ++ b) = emits st i a ++ scanFrom (after st i a) (i + a.length) b := by
  induction a generalizing st i with
  | nil => simp [emits, after]
  | cons c cs ih =>
    have h : i + 1 + cs.length = i + (cs.length + 1) := by omega
    rw [List.cons_append, scanFrom, emits, after, ih, List.length_cons, List.append_assoc, h]

theorem emits_append (a b : Text) (st : Scan) (i : Nat) :
    emits st i (a ++ b) = emits st i a ++ emits (after st i a) (i + a.length) b := by
  induction a generalizing st i with
  | nil => simp [emits, after]
  | cons c cs ih =>
    have h : i + 1 + cs.length = i + (cs.length + 1) := by omega
    rw [List.cons_append, emits, emits, after, ih, List.length_cons, List.append_assoc, h]

theorem after_append (a b : Text) (st : Scan) (i : Nat) :
    after st i (a ++ b) = after (after st i a) (i + a.length) b := by
  induction a generalizing st i with
  | nil => simp [after]
  | cons c cs ih =>
    have h : i + 1 + cs.length = i + (cs.length + 1) := by omega
    rw [List.cons_append, after, after, ih, List.length_cons, h]

theorem scanFrom_eq_emits_flush (s : Text) (st : Scan) (i : Nat) :
    scanFrom st i s = emits st i s ++ flush (after st i s) (i + s.length) := by
  have h := scanFrom_append s [] st i
  simpa [scanFrom] using h

theorem step_spec (st : Scan) (i : Nat) (c : Char) (h : st.okAt i) :
    (step st i c).1.okAt (i + 1) ∧ st.low i ≤ (step st i c).1.low (i + 1) ∧
    ∀ m ∈ (step st i c).2, m.within (st.low i) i ∧ (step st i c).1 = .bol := by
  cases st <;> simp only [step, Scan.okAt, Scan.low, Loc.within] at * <;>
    split_ifs <;> simp [Scan.okAt, Scan.low] <;> omega

theorem scanFrom_within (s : Text) (st : Scan) (i : Nat) (h : st.okAt i) :
    ∀ m ∈ scanFrom st i s, m.within (st.low i) (i + s.length) := by
  induction s generalizing st i with
  | nil =>
    intro m hm
    cases st <;> simp [scanFrom, flush, Scan.okAt, Scan.low, Loc.within] at * <;>
      subst hm <;> simp <;> omega
  | cons c cs ih =>
    intro m hm
    obtain ⟨h1, h2, h3⟩ := step_spec st i c h
    rw [scanFrom, List.mem_append] at hm
    rcases hm with hm | hm
    · have := (h3 m hm).1
      simp only [Loc.within, List.length_cons] at *
      omega
    · have := ih _ _ h1 m hm
      simp only [Loc.within, List.length_cons] at *
      omega

theorem emits_within (s : Text) (st : Scan) (i : Nat) (h : st.okAt i) :
    ∀ m ∈ emits st i s, m.within (st.low i) (i + s.length) ∧ m.m1 < i + s.length := by
  induction s generalizing st i with
  | nil => simp [emits]
  | cons c cs ih =>
    intro m hm
    obtain ⟨h1, h2, h3⟩ := step_spec st i c h
    rw [emits, List.mem_append] at hm
    rcases hm with hm | hm
    · have := (h3 m hm).1
      simp only [Loc.within, List.length_cons] at *
      omega
    · have := ih _ _ h1 m hm
      simp only [Loc.within, List.length_cons] at *
      omega

theorem after_okAt (s : Text) (st : Scan) (i : Nat) (h : st.okAt i) :
    (after st i s).okAt (i + s.length) ∧ st.low i ≤ (after st i s).low (i + s.length) := by
  induction s generalizing st i with
  | nil => simp [after, h]
  | cons c cs ih =>
    obtain ⟨h1, h2, -⟩ := step_spec st i c h
    have := ih _ _ h1
    have e : i + 1 + cs.length = i + (cs.length + 1) := by omega
    rw [after, List.length_cons, ← e]
    exact ⟨this.1, le_trans h2 this.2⟩

/-- Successive matches do not overlap: each starts after the end of the one
before. -/
theorem scanFrom_pairwise (s : Text) (st : Scan) (i : Nat) (h : st.okAt i) :
    (scanFrom st i s).Pairwise (fun x y => x.m1 < y.m0) := by
  induction s generalizing st i with
  | nil => cases st <;> simp [scanFrom, flush]
  | cons c cs ih =>
    obtain ⟨h1, h2, h3⟩ := step_spec st i c h
    rw [scanFrom, List.pairwise_append]
    refine ⟨?_, ih _ _ h1, ?_⟩
    · cases st <;> simp only [step] <;> split_ifs <;> simp
    · intro a ha b hb
      obtain ⟨hw, hb1⟩ := h3 a ha
      have := scanFrom_within cs _ _ h1 b hb
      rw [hb1] at this
      simp only [Loc.within, Scan.low] at *
      omega

theorem findAll_within (md : Text) :
    ∀ m ∈ FindAllStringSubmatchIndex md, m.within 0 md.length := by
  intro m hm
  have := scanFrom_within md .bol 0 trivial m hm
  simpa [Scan.low] using this

theorem findAll_pairwise (md : Text) :
    (FindAllStringSubmatchIndex md).Pairwise (fun x y => x.m1 < y.m0) :=
  scanFrom_pairwise md .bol 0 trivial

/-- The span of a section is in range: the heading starts before its end,
which is at most the start of the next heading or the length of the text. -/
theorem span_bounds (md : Text) (i : Nat) (m : Loc)
    (h : (FindAllStringSubmatchIndex md)[i]? = some m) :
    m.m0 < m.m1 ∧
    m.m1 ≤ (match (FindAllStringSubmatchIndex md)[i + 1]? with
      | some nx => nx.m0
      | none => md.length) ∧
    (match (FindAllStringSubmatchIndex md)[i + 1]? with
      | some nx => nx.m0
      | none => md.length) ≤ md.length := by
  obtain ⟨hi, rfl⟩ := List.getElem?_eq_some.1 h
  have hw := findAll_within md _ (List.getElem_mem hi)
  cases hn : (FindAllStringSubmatchIndex md)[i + 1]? with
  | none =>
    simp only [Loc.within] at hw
    simp only
    omega
  | some nx =>
    obtain ⟨hi1, rfl⟩ := List.getElem?_eq_some.1 hn
    have hw1 := findAll_within md _ (List.getElem_mem hi1)
    have hp := List.pairwise_iff_getElem.1 (findAll_pairwise md) i (i + 1) hi hi1 (by omega)
    simp only [Loc.within] at hw hw1
    simp only
    omega

theorem sectionsOf_length (md : Text) (ms : List Loc) :
    (sectionsOf md ms).length = ms.length := by
  induction ms with
  | nil => rfl
  | cons m rest ih => simp [sectionsOf, ih]

theorem SplitSections_length (md : Text) :
    (SplitSections md).length = (FindAllStringSubmatchIndex md).length :=
  sectionsOf_length md _

/-- The loop over the sections either finds no section with the title or stops
at the first one. -/
theorem findTitle_cases (oldTitle : Text) (secs : List Section) (k : Nat) :
    (findTitle oldTitle k secs = none ∧ ∀ x ∈ secs, x.Title ≠ oldTitle) ∨
    ∃ before sec rest, secs = before ++ sec :: rest ∧ (∀ x ∈ before, x.Title ≠ oldTitle) ∧
      sec.Title = oldTitle ∧ findTitle oldTitle k secs = some (k + before.length) := by
  induction secs generalizing k with
  | nil => left; simp [findTitle]
  | cons a rest ih =>
    by_cases ha : a.Title = oldTitle
    · right
      exact ⟨[], a, rest, by simp, by simp, ha, by simp [findTitle, ha]⟩
    · rcases ih (k + 1) with ⟨h1, h2⟩ | ⟨before, sec, rest1, h1, h2, h3, h4⟩
      · left
        refine ⟨by simp [findTitle, ha, h1], ?_⟩
        intro x hx
        rcases List.mem_cons.1 hx with rfl | hx
        · exact ha
        · exact h2 x hx
      · right
        refine ⟨a :: before, sec, rest1, by simp [h1], ?_, h3, ?_⟩
        · intro x hx
          rcases List.mem_cons.1 hx with rfl | hx
          · exact ha
          · exact h2 x hx
        · simp only [findTitle, ha, if_false, h4, List.length_cons]
          congr 1
          omega

theorem lookupContent_cases (title : Text) (secs : List Section) :
    (lookupContent title secs = none ∧ ∀ x ∈ secs, x.Title ≠ title) ∨
    ∃ before sec rest, secs = before ++ sec :: rest ∧ (∀ x ∈ before, x.Title ≠ title) ∧
      sec.Title = title ∧ lookupContent title secs = some sec.Content := by
  induction secs with
  | nil => left; simp [lookupContent]
  | cons a rest ih =>
    by_cases ha : a.Title = title
    · right
      exact ⟨[], a, rest, by simp, by simp, ha, by simp [lookupContent, ha]⟩
    · rcases ih with ⟨h1, h2⟩ | ⟨before, sec, rest1, h1, h2, h3, h4⟩
      · left
        refine ⟨by simp [lookupContent, ha, h1], ?_⟩
        intro x hx
        rcases List.mem_cons.1 hx with rfl | hx
        · exact ha
        · exact h2 x hx
      · right
        refine ⟨a :: before, sec, rest1, by simp [h1], ?_, h3, by simp [lookupContent, ha, h4]⟩
        intro x hx
        rcases List.mem_cons.1 hx with rfl | hx
        · exact ha
        · exact h2 x hx

theorem lineEndLoop_cases (t : Text) (j : Nat) :
    (lineEndLoop t j = none ∧ LF ∉ t) ∨
    ∃ a b, t = a ++ LF :: b ∧ LF ∉ a ∧ lineEndLoop t j = some (j + a.length) := by
  induction t generalizing j with
  | nil => left; simp [lineEndLoop]
  | cons c cs ih =>
    by_cases hc : c = LF
    · right
      exact ⟨[], cs, by simp [hc], by simp, by simp [lineEndLoop, hc]⟩
    · rcases ih (j + 1) with ⟨h1, h2⟩ | ⟨a, b, h1, h2, h3⟩
      · left
        refine ⟨by simp [lineEndLoop, hc, h1], ?_⟩
        simp only [List.mem_cons, not_or]
        exact ⟨fun h => hc h.symm, h2⟩
      · right
        refine ⟨c :: a, b, by simp [h1], ?_, ?_⟩
        · simp only [List.mem_cons, not_or]
          exact ⟨fun h => hc h.symm, h2⟩
        · simp only [lineEndLoop, hc, if_false, h3, List.length_cons]
          congr 1
          omega

/-- The end of the heading line: the text from `start` is a line without line
feed, followed by a line feed or by nothing, and `lineEnd` is where the line
ends. -/
theorem lineEndFrom_spec (md : Text) (start : Nat) (h : start ≤ md.length) :
    ∃ line, LF ∉ line ∧ lineEndFrom md start = start + line.length ∧
      (md.drop start = line ∨ ∃ rest, md.drop start = line ++ LF :: rest) := by
  rcases lineEndLoop_cases (md.drop start) start with ⟨h1, h2⟩ | ⟨a, b, h1, h2, h3⟩
  · refine ⟨md.drop start, h2, ?_, Or.inl rfl⟩
    simp only [lineEndFrom, h1, List.length_drop]
    omega
  · exact ⟨a, h2, by simp [lineEndFrom, h3], Or.inr ⟨b, h1⟩⟩

theorem step_shift (st : Scan) (i k : Nat) (c : Char) :
    step (st.shift k) (i + k) c =
      ((step st i c).1.shift k, (step st i c).2.map (Loc.shift k)) := by
  cases st <;> simp only [step, Scan.shift] <;> split_ifs <;> simp [Scan.shift, Loc.shift]

theorem scanFrom_shift (s : Text) (st : Scan) (i k : Nat) :
    scanFrom (st.shift k) (i + k) s = (scanFrom st i s).map (Loc.shift k) := by
  induction s generalizing st i with
  | nil => cases st <;> simp [scanFrom, flush, Scan.shift, Loc.shift]
  | cons c cs ih =>
    have e : i + k + 1 = i + 1 + k := by omega
    rw [scanFrom, scanFrom, step_shift, List.map_append, e, ih]

theorem emits_shift (s : Text) (st : Scan) (i k : Nat) :
    emits (st.shift k) (i + k) s = (emits st i s).map (Loc.shift k) := by
  induction s generalizing st i with
  | nil => simp [emits]
  | cons c cs ih =>
    have e : i + k + 1 = i + 1 + k := by omega
    rw [emits, emits, step_shift, List.map_append, e, ih]

theorem after_shift (s : Text) (st : Scan) (i k : Nat) :
    after (st.shift k) (i + k) s = (after st i s).shift k := by
  induction s generalizing st i with
  | nil => simp [after]
  | cons c cs ih =>
    have e : i + k + 1 = i + 1 + k := by omega
    rw [after, after, step_shift, e, ih]

theorem scanFrom_bol_shift (s : Text) (k : Nat) :
    scanFrom .bol k s = (scanFrom .bol 0 s).map (Loc.shift k) := by
  have := scanFrom_shift s .bol 0 k
  simpa [Scan.shift] using this

theorem emits_bol_shift (s : Text) (k : Nat) :
    emits .bol k s = (emits .bol 0 s).map (Loc.shift k) := by
  have := emits_shift s .bol 0 k
  simpa [Scan.shift] using this

theorem after_bol_shift (s : Text) (k : Nat) :
    after .bol k s = (after .bol 0 s).shift k := by
  have := after_shift s .bol 0 k
  simpa [Scan.shift] using this

theorem after_bol_eq_bol (s : Text) (k : Nat) :
    after .bol k s = .bol ↔ after .bol 0 s = .bol := by
  rw [after_bol_shift]
  cases after .bol 0 s <;> simp [Scan.shift]

theorem scanFrom_startsAt (s : Text) (st : Scan) (i : Nat) :
    ∀ x ∈ scanFrom st i s, st.startsAt i x.m0 := by
  induction s generalizing st i with
  | nil =>
    intro x hx
    cases st <;> simp only [scanFrom, flush, List.mem_singleton, List.not_mem_nil] at hx <;>
      subst hx <;> simp [Scan.startsAt]
  | cons c cs ih =>
    intro x hx
    rw [scanFrom, List.mem_append] at hx
    rcases hx with hx | hx
    · cases st <;> simp only [step] at hx <;> split_ifs at hx <;>
        simp only [List.mem_singleton, List.not_mem_nil] at hx
      subst hx
      simp [Scan.startsAt]
    · have := ih _ _ x hx
      cases st <;> simp only [step] at this <;> split_ifs at this <;>
        simp only [Scan.startsAt] at this ⊢ <;> omega

/-- A match that starts at the current offset is found from a line start only,
and there the text begins with `##` and a whitespace character. -/
theorem scanFrom_start (s : Text) (st : Scan) (i : Nat) (h : st.okAt i)
    (x : Loc) (hx : x ∈ scanFrom st i s) (h0 : x.m0 = i) :
    st = .bol ∧ StartsHeading s := by
  have hst : st = .bol := by
    have := scanFrom_startsAt s st i x hx
    cases st <;> simp only [Scan.startsAt, Scan.okAt] at this h ⊢ <;> omega
  refine ⟨hst, ?_⟩
  subst hst
  have key : ∀ (st1 : Scan) (j : Nat) (t : Text), x ∈ scanFrom st1 j t →
      st1 = .bol ∨ st1 = .mid → i < j → False := by
    intro st1 j t hmem hst1 hlt
    have := scanFrom_startsAt t st1 j x hmem
    rcases hst1 with rfl | rfl <;> simp only [Scan.startsAt] at this <;> omega
  have stepB : ∀ (j : Nat) (c : Char), c ≠ '#' →
      (step .bol j c).2 = [] ∧ ((step .bol j c).1 = .bol ∨ (step .bol j c).1 = .mid) := by
    intro j c hc
    simp only [step, hc, if_false]
    split_ifs <;> simp
  have stepH : ∀ (p j : Nat) (c : Char), c ≠ '#' →
      (step (.hash1 p) j c).2 = [] ∧
        ((step (.hash1 p) j c).1 = .bol ∨ (step (.hash1 p) j c).1 = .mid) := by
    intro p j c hc
    simp only [step, hc, if_false]
    split_ifs <;> simp
  match s with
  | [] => simp [scanFrom, flush] at hx
  | c0 :: s1 =>
    rw [scanFrom] at hx
    by_cases e0 : c0 = '#'
    · subst e0
      have hs : step .bol i '#' = (.hash1 i, []) := by simp [step]
      rw [hs, List.nil_append] at hx
      match s1 with
      | [] => simp [scanFrom, flush] at hx
      | c1 :: s2 =>
        rw [scanFrom] at hx
        by_cases e1 : c1 = '#'
        · subst e1
          have hs1 : step (.hash1 i) (i + 1) '#' = (.hash2 i, []) := by simp [step]
          rw [hs1, List.nil_append] at hx
          match s2 with
          | [] => simp [scanFrom, flush] at hx
          | c2 :: r =>
            by_cases e2 : isSpace c2 = true
            · exact ⟨c2, r, rfl, e2⟩
            · exfalso
              rw [scanFrom] at hx
              have hs2 : step (.hash2 i) (i + 1 + 1) c2 = (.mid, []) := by simp [step, e2]
              rw [hs2, List.nil_append] at hx
              exact key _ _ _ hx (Or.inr rfl) (by omega)
        · exfalso
          obtain ⟨q1, q2⟩ := stepH i (i + 1) c1 e1
          rw [q1, List.nil_append] at hx
          exact key _ _ _ hx q2 (by omega)
    · exfalso
      obtain ⟨q1, q2⟩ := stepB i c0 e0
      rw [q1, List.nil_append] at hx
      exact key _ _ _ hx q2 (by omega)

theorem title_head (s : Text) (p q i : Nat) :
    ∃ m rest, scanFrom (.title p q) i s = m :: rest ∧ m.m0 = p := by
  induction s generalizing i with
  | nil => exact ⟨_, [], rfl, rfl⟩
  | cons c cs ih =>
    by_cases hc : c = LF
    · exact ⟨⟨p, i, q, i⟩, scanFrom .bol (i + 1) cs, by simp [scanFrom, step, hc], rfl⟩
    · obtain ⟨m, rest, h1, h2⟩ := ih (i + 1)
      exact ⟨m, rest, by simp [scanFrom, step, hc, h1], h2⟩

theorem ws_head (s : Text) (p i : Nat) :
    ∃ m rest, scanFrom (.ws p) i s = m :: rest ∧ m.m0 = p := by
  induction s generalizing i with
  | nil => exact ⟨_, [], rfl, rfl⟩
  | cons c cs ih =>
    by_cases hc : isSpace c = true
    · obtain ⟨m, rest, h1, h2⟩ := ih (i + 1)
      exact ⟨m, rest, by simp [scanFrom, step, hc, h1], h2⟩
    · obtain ⟨m, rest, h1, h2⟩ := title_head cs p i (i + 1)
      exact ⟨m, rest, by simp [scanFrom, step, hc, h1], h2⟩

theorem heading_first (s : Text) (i : Nat) (h : StartsHeading s) :
    ∃ m rest, scanFrom .bol i s = m :: rest ∧ m.m0 = i := by
  obtain ⟨c, r, rfl, hc⟩ := h
  obtain ⟨m, rest, h1, h2⟩ := ws_head r i (i + 1 + 1 + 1)
  exact ⟨m, rest, by simp [scanFrom, step, hc, h1], h2⟩

/-- Cutting the text at the start of its `j`-th match: the part before ends at
a line start with no match open and holds the first `j` matches, the part
after begins with a heading and holds the others. -/
theorem cut_at_match (md : Text) (j : Nat) (m : Loc)
    (h : (FindAllStringSubmatchIndex md)[j]? = some m) :
    after .bol 0 (md.take m.m0) = .bol ∧ StartsHeading (md.drop m.m0) ∧
    emits .bol 0 (md.take m.m0) = (FindAllStringSubmatchIndex md).take j ∧
    scanFrom .bol m.m0 (md.drop m.m0) = (FindAllStringSubmatchIndex md).drop j := by
  obtain ⟨hj, hm⟩ := List.getElem?_eq_some.1 h
  have hmem : m ∈ FindAllStringSubmatchIndex md := List.getElem?_mem h
  have hw := findAll_within md m hmem
  have hk : (md.take m.m0).length = m.m0 := by
    simp only [Loc.within] at hw
    rw [List.length_take]
    omega
  have hsplit : FindAllStringSubmatchIndex md =
      emits .bol 0 (md.take m.m0) ++
        scanFrom (after .bol 0 (md.take m.m0)) m.m0 (md.drop m.m0) := by
    have := scanFrom_append (md.take m.m0) (md.drop m.m0) .bol 0
    rw [List.take_append_drop, hk, Nat.zero_add] at this
    exact this
  have hE : ∀ x ∈ emits .bol 0 (md.take m.m0), x.m0 < m.m0 := by
    intro x hx
    have := emits_within (md.take m.m0) .bol 0 trivial x hx
    simp only [Loc.within, hk] at this
    omega
  have hok : (after .bol 0 (md.take m.m0)).okAt m.m0 := by
    have := (after_okAt (md.take m.m0) .bol 0 trivial).1
    rwa [hk, Nat.zero_add] at this
  have hlen : (emits .bol 0 (md.take m.m0)).length ≤ j := by
    by_contra hlt
    push_neg at hlt
    have e : (FindAllStringSubmatchIndex md)[j]? = (emits .bol 0 (md.take m.m0))[j]? := by
      rw [hsplit, List.getElem?_append_left hlt]
    rw [h] at e
    have := hE m (List.getElem?_mem e.symm)
    omega
  have hS : (scanFrom (after .bol 0 (md.take m.m0)) m.m0 (md.drop m.m0))[
      j - (emits .bol 0 (md.take m.m0)).length]? = some m := by
    rw [← h, hsplit, List.getElem?_append_right hlen]
  obtain ⟨hj3, -⟩ := List.getElem?_eq_some.1 hS
  obtain ⟨hbol, hhead⟩ := scanFrom_start (md.drop m.m0) _ m.m0 hok m
    (List.getElem?_mem hS) rfl
  rw [hbol] at hsplit hS hj3
  have hzero : j - (emits .bol 0 (md.take m.m0)).length = 0 := by
    by_contra hne
    have hpos : 0 < j - (emits .bol 0 (md.take m.m0)).length := Nat.pos_of_ne_zero hne
    have h0 : 0 < (scanFrom .bol m.m0 (md.drop m.m0)).length := by omega
    have hp := List.pairwise_iff_getElem.1 (scanFrom_pairwise (md.drop m.m0) .bol m.m0 trivial)
      0 (j - (emits .bol 0 (md.take m.m0)).length) h0 hj3 hpos
    have hx := scanFrom_within (md.drop m.m0) .bol m.m0 trivial _ (List.getElem_mem h0)
    have hm4 : (scanFrom .bol m.m0 (md.drop m.m0))[j - (emits .bol 0 (md.take m.m0)).length] = m := by
      have := List.getElem?_eq_getElem hj3
      rw [hS] at this
      exact (Option.some.inj this).symm
    rw [hm4] at hp
    simp only [Loc.within, Scan.low] at hx
    omega
  have hjE : (emits .bol 0 (md.take m.m0)).length = j := by omega
  refine ⟨hbol, hhead, ?_, ?_⟩
  · rw [hsplit, List.take_left' hjE]
  · rw [hsplit, List.drop_left' hjE]

theorem slice_append_left (a r : Text) (x y : Nat) (hy : y ≤ a.length) :
    slice (a ++ r) x y = slice a x y := by
  unfold slice
  by_cases hx : x ≤ a.length
  · rw [List.drop_append_of_le_length hx, List.take_append_of_le_length]
    rw [List.length_drop]
    omega
  · have e : y - x = 0 := by omega
    rw [e, List.take_zero, List.take_zero]

theorem slice_append_right (p s : Text) (x y : Nat) :
    slice (p ++ s) (x + p.length) (y + p.length) = slice s x y := by
  unfold slice
  have e1 : y + p.length - (x + p.length) = y - x := by omega
  have e2 : x + p.length = p.length + x := by omega
  rw [e1, e2, List.drop_append]

theorem slice_zero_length (s : Text) : slice s 0 s.length = s := by
  simp [slice]

theorem sectionsTo_cons (md : Text) (stop : Nat) (m : Loc) (rest : List Loc) :
    sectionsTo md stop (m :: rest) =
      ⟨slice md m.m2 m.m3, slice md m.m1 (nextStart stop rest)⟩ :: sectionsTo md stop rest := by
  cases rest <;> rfl

theorem sectionsOf_eq_sectionsTo (md : Text) (ms : List Loc) :
    sectionsOf md ms = sectionsTo md md.length ms := by
  induction ms with
  | nil => rfl
  | cons m rest ih =>
    rw [sectionsTo_cons, ← ih]
    cases rest <;> rfl

theorem sectionsTo_length (md : Text) (stop : Nat) (ms : List Loc) :
    (sectionsTo md stop ms).length = ms.length := by
  induction ms with
  | nil => rfl
  | cons m rest ih => rw [sectionsTo_cons, List.length_cons, ih, List.length_cons]

theorem sectionsTo_append (md : Text) (stop : Nat) (ms1 : List Loc) (m : Loc) (ms2 : List Loc) :
    sectionsTo md stop (ms1 ++ m :: ms2) =
      sectionsTo md m.m0 ms1 ++ sectionsTo md stop (m :: ms2) := by
  induction ms1 with
  | nil => rfl
  | cons a rest ih =>
    rw [List.cons_append, sectionsTo_cons, sectionsTo_cons, ih, List.cons_append]
    cases rest <;> rfl

theorem sectionsTo_inside (a r : Text) (stop : Nat) (ms : List Loc)
    (hstop : stop ≤ a.length) (h : ∀ x ∈ ms, x.within 0 a.length) :
    sectionsTo (a ++ r) stop ms = sectionsTo a stop ms := by
  induction ms with
  | nil => rfl
  | cons m rest ih =>
    have hm := h m (List.mem_cons_self _ _)
    have hrest : ∀ x ∈ rest, x.within 0 a.length := fun x hx => h x (List.mem_cons_of_mem _ hx)
    simp only [Loc.within] at hm
    have hn : nextStart stop rest ≤ a.length := by
      cases rest with
      | nil => exact hstop
      | cons nx rest1 =>
        have hnx := h nx (by simp)
        simp only [Loc.within] at hnx
        simp only [nextStart]
        omega
    rw [sectionsTo_cons, sectionsTo_cons, ih hrest, slice_append_left _ _ _ _ (by omega),
      slice_append_left _ _ _ _ hn]

theorem sectionsTo_shift (p s : Text) (stop : Nat) (ms : List Loc) :
    sectionsTo (p ++ s) (stop + p.length) (ms.map (Loc.shift p.length)) = sectionsTo s stop ms := by
  induction ms with
  | nil => rfl
  | cons m rest ih =>
    have hn : nextStart (stop + p.length) (rest.map (Loc.shift p.length)) =
        nextStart stop rest + p.length := by
      cases rest <;> rfl
    rw [List.map_cons, sectionsTo_cons, sectionsTo_cons, ih, hn]
    simp only [Loc.shift, slice_append_right]

theorem findAll_eq_emits (a : Text) (h : after .bol 0 a = .bol) :
    FindAllStringSubmatchIndex a = emits .bol 0 a := by
  unfold FindAllStringSubmatchIndex
  rw [scanFrom_eq_emits_flush, h]
  simp [flush]

/-- The parse of two pieces put together is the two parses put together, when
the first piece ends at a line start with no match open and the second is empty
or begins with a heading. -/
theorem SplitSections_append (a r : Text) (ha : after .bol 0 a = .bol)
    (hr : r = [] ∨ StartsHeading r) :
    SplitSections (a ++ r) = SplitSections a ++ SplitSections r := by
  rcases hr with rfl | hr
  · simp [SplitSections, FindAllStringSubmatchIndex, scanFrom, flush, sectionsOf]
  · obtain ⟨m, rest, h1, h2⟩ := heading_first r 0 hr
    have hall : FindAllStringSubmatchIndex (a ++ r) =
        emits .bol 0 a ++ (m :: rest).map (Loc.shift a.length) := by
      unfold FindAllStringSubmatchIndex
      rw [scanFrom_append, ha, Nat.zero_add, scanFrom_bol_shift, h1]
    have hw : ∀ x ∈ emits .bol 0 a, x.within 0 a.length := by
      intro x hx
      have := (emits_within a .bol 0 trivial x hx).1
      simpa [Scan.low] using this
    unfold SplitSections
    rw [hall, sectionsOf_eq_sectionsTo, sectionsOf_eq_sectionsTo, sectionsOf_eq_sectionsTo,
      findAll_eq_emits a ha, List.map_cons, sectionsTo_append]
    congr 1
    · have e : (Loc.shift a.length m).m0 = a.length := by simp [Loc.shift, h2]
      rw [e, sectionsTo_inside a r a.length _ (le_refl _) hw]
    · have e : (a ++ r).length = r.length + a.length := by simp; omega
      rw [e, ← List.map_cons, sectionsTo_shift]
      unfold FindAllStringSubmatchIndex
      rw [h1]

theorem cut_sections (md : Text) (j : Nat) (m : Loc)
    (h : (FindAllStringSubmatchIndex md)[j]? = some m) :
    after .bol 0 (md.take m.m0) = .bol ∧ StartsHeading (md.drop m.m0) ∧
    SplitSections (md.take m.m0) = (SplitSections md).take j ∧
    SplitSections (md.drop m.m0) = (SplitSections md).drop j := by
  obtain ⟨h1, h2, h3, -⟩ := cut_at_match md j m h
  have hj : j < (FindAllStringSubmatchIndex md).length := (List.getElem?_eq_some.1 h).1
  have happ := SplitSections_append (md.take m.m0) (md.drop m.m0) h1 (Or.inr h2)
  rw [List.take_append_drop] at happ
  have hlen : (SplitSections (md.take m.m0)).length = j := by
    rw [SplitSections_length, findAll_eq_emits _ h1, h3, List.length_take]
    omega
  refine ⟨h1, h2, ?_, ?_⟩
  · rw [happ, List.take_left' hlen]
  · rw [happ, List.drop_left' hlen]

theorem run_mid (t : Text) (i : Nat) (ht : LF ∉ t) :
    emits .mid i t = [] ∧ after .mid i t = .mid := by
  induction t generalizing i with
  | nil => exact ⟨rfl, rfl⟩
  | cons c cs ih =>
    have hc : c ≠ LF := fun e => ht (by simp [e])
    have hcs : LF ∉ cs := fun e => ht (List.mem_cons_of_mem _ e)
    have hs : step .mid i c = (.mid, []) := by simp [step, hc]
    rw [emits, after, hs]
    exact ih (i + 1) hcs

theorem run_title (t : Text) (p q i : Nat) (ht : LF ∉ t) :
    emits (.title p q) i t = [] ∧ after (.title p q) i t = .title p q := by
  induction t generalizing i with
  | nil => exact ⟨rfl, rfl⟩
  | cons c cs ih =>
    have hc : c ≠ LF := fun e => ht (by simp [e])
    have hcs : LF ∉ cs := fun e => ht (List.mem_cons_of_mem _ e)
    have hs : step (.title p q) i c = (.title p q, []) := by simp [step, hc]
    rw [emits, after, hs]
    exact ih (i + 1) hcs

theorem run_ws (w : Text) (p i : Nat) (hw : ∀ c ∈ w, isSpace c = true) :
    emits (.ws p) i w = [] ∧ after (.ws p) i w = .ws p := by
  induction w generalizing i with
  | nil => exact ⟨rfl, rfl⟩
  | cons c cs ih =>
    have hc : isSpace c = true := hw c (by simp)
    have hcs : ∀ c ∈ cs, isSpace c = true := fun x hx => hw x (List.mem_cons_of_mem _ hx)
    have hs : step (.ws p) i c = (.ws p, []) := by simp [step, hc]
    rw [emits, after, hs]
    exact ih (i + 1) hcs

theorem isSpace_LF : isSpace LF = true := by decide

/-- Reading a heading `##`, a whitespace run `w` and a title `t` from a line
start: nothing is completed, and the title is open (or the whitespace run,
when the title is empty). -/
theorem run_heading (w t : Text) (i : Nat) (hw0 : w ≠ [])
    (hw : ∀ c ∈ w, isSpace c = true) (ht : LF ∉ t)
    (ht0 : ∀ c ∈ t.head?, isSpace c = false) :
    emits .bol i ('#' :: '#' :: (w ++ t)) = [] ∧
    after .bol i ('#' :: '#' :: (w ++ t)) =
      (if t = [] then .ws i else .title i (i + 2 + w.length)) := by
  obtain ⟨c, w1, rfl⟩ := List.exists_cons_of_ne_nil hw0
  have hc : isSpace c = true := hw c (by simp)
  have s0 : step .bol i '#' = (.hash1 i, []) := by simp [step]
  have s1 : step (.hash1 i) (i + 1) '#' = (.hash2 i, []) := by simp [step]
  have s2 : step (.hash2 i) (i + 1 + 1) c = (.ws i, []) := by simp [step, hc]
  have hw1 : ∀ c ∈ w1, isSpace c = true := fun x hx => hw x (List.mem_cons_of_mem _ hx)
  obtain ⟨e1, a1⟩ := run_ws w1 i (i + 1 + 1 + 1) hw1
  have hE : emits .bol i ('#' :: '#' :: (c :: w1 ++ t)) =
      emits (.ws i) (i + 1 + 1 + 1 + w1.length) t := by
    rw [emits, s0, emits, s1, List.cons_append, emits, s2, emits_append, e1, a1]
    rfl
  have hA : after .bol i ('#' :: '#' :: (c :: w1 ++ t)) =
      after (.ws i) (i + 1 + 1 + 1 + w1.length) t := by
    rw [after, s0, after, s1, List.cons_append, after, s2, after_append, a1]
  rw [hE, hA]
  match t, ht, ht0 with
  | [], _, _ => exact ⟨rfl, rfl⟩
  | d :: t1, ht, ht0 =>
    have hd : isSpace d = false := ht0 d (by simp)
    have hdl : LF ∉ t1 := fun e => ht (List.mem_cons_of_mem _ e)
    have s3 : step (.ws i) (i + 1 + 1 + 1 + w1.length) d =
        (.title i (i + 1 + 1 + 1 + w1.length), []) := by simp [step, hd]
    obtain ⟨e2, a2⟩ := run_title t1 i (i + 1 + 1 + 1 + w1.length)
      (i + 1 + 1 + 1 + w1.length + 1) hdl
    rw [emits, after, s3, e2, a2]
    refine ⟨rfl, ?_⟩
    simp only [List.cons_ne_nil, if_false, List.length_cons]
    congr 1
    omega

theorem scanFrom_title_rest (rest : Text) (p q e : Nat)
    (hrest : rest = [] ∨ ∃ r, rest = LF :: r) :
    scanFrom (.title p q) e rest =
      ⟨p, e, q, e⟩ :: (scanFrom .mid 0 rest).map (Loc.shift e) := by
  rcases hrest with rfl | ⟨r, rfl⟩
  · rfl
  · have s1 : step (.title p q) e LF = (.bol, [⟨p, e, q, e⟩]) := by simp [step]
    have s2 : step .mid 0 LF = (.bol, []) := by simp [step]
    have h := scanFrom_shift r .bol (0 + 1) e
    have e1 : 0 + 1 + e = e + 1 := by omega
    rw [e1] at h
    rw [scanFrom, s1, scanFrom, s2, List.nil_append, ← h]
    rfl

/-- The matches of a text that begins with a heading: `##`, the whitespace run
`w`, the title `t`, then `rest`, which is empty or begins with a line feed. -/
theorem heading_matches (w t rest : Text) (hw0 : w ≠ [])
    (hw : ∀ c ∈ w, isSpace c = true) (ht : LF ∉ t)
    (ht0 : ∀ c ∈ t.head?, isSpace c = false)
    (hrest : rest = [] ∨ ∃ r, rest = LF :: r) (hempty : t = [] → rest = []) :
    FindAllStringSubmatchIndex ('#' :: '#' :: (w ++ t) ++ rest) =
      ⟨0, 2 + w.length + t.length, 2 + w.length, 2 + w.length + t.length⟩ ::
        (scanFrom .mid 0 rest).map (Loc.shift (2 + w.length + t.length)) := by
  obtain ⟨e1, a1⟩ := run_heading w t 0 hw0 hw ht ht0
  have hl : ('#' :: '#' :: (w ++ t)).length = 2 + w.length + t.length := by
    simp only [List.length_cons, List.length_append]
    omega
  unfold FindAllStringSubmatchIndex
  rw [scanFrom_append, e1, a1, List.nil_append, hl, Nat.zero_add]
  by_cases h0 : t = []
  · rw [if_pos h0, hempty h0, h0]
    simp [scanFrom, flush]
  · rw [if_neg h0, scanFrom_title_rest rest _ _ _ hrest]
    simp

/-- The sections of a text that begins with a heading: the first has the title
`t` and the text after the heading, up to the next heading, as content. -/
theorem heading_sections (w t rest : Text) (hw0 : w ≠ [])
    (hw : ∀ c ∈ w, isSpace c = true) (ht : LF ∉ t)
    (ht0 : ∀ c ∈ t.head?, isSpace c = false)
    (hrest : rest = [] ∨ ∃ r, rest = LF :: r) (hempty : t = [] → rest = []) :
    SplitSections ('#' :: '#' :: (w ++ t) ++ rest) =
      ⟨t, headContent rest⟩ :: tailSections rest := by
  have hl : ('#' :: '#' :: (w ++ t)).length = 2 + w.length + t.length := by
    simp only [List.length_cons, List.length_append]
    omega
  have hlen : ('#' :: '#' :: (w ++ t) ++ rest).length =
      rest.length + ('#' :: '#' :: (w ++ t)).length := by
    rw [List.length_append]
    omega
  have hn : nextStart (rest.length + ('#' :: '#' :: (w ++ t)).length)
      ((scanFrom .mid 0 rest).map (Loc.shift ('#' :: '#' :: (w ++ t)).length)) =
      nextStart rest.length (scanFrom .mid 0 rest) + ('#' :: '#' :: (w ++ t)).length := by
    cases scanFrom .mid 0 rest <;> rfl
  unfold SplitSections
  rw [heading_matches w t rest hw0 hw ht ht0 hrest hempty, sectionsOf_eq_sectionsTo,
    sectionsTo_cons, hlen, ← hl, sectionsTo_shift, hn]
  congr 2
  · have e : '#' :: '#' :: (w ++ t) ++ rest = ('#' :: '#' :: w) ++ (t ++ rest) := by simp
    have e2 : ('#' :: '#' :: (w ++ t)).length = t.length + ('#' :: '#' :: w).length := by
      simp only [List.length_cons, List.length_append]
      omega
    have e3 : 2 + w.length = 0 + ('#' :: '#' :: w).length := by
      simp only [List.length_cons]
      omega
    show slice _ (2 + w.length) ('#' :: '#' :: (w ++ t)).length = t
    rw [e, e2, e3, slice_append_right, slice_append_left _ _ _ _ (le_refl _), slice_zero_length]
  · have h := slice_append_right ('#' :: '#' :: (w ++ t)) rest 0
      (nextStart rest.length (scanFrom .mid 0 rest))
    rw [Nat.zero_add] at h
    show slice _ ('#' :: '#' :: (w ++ t)).length _ = _
    rw [h]
    simp [slice, headContent]

theorem idle_step_LF (st : Scan) (j : Nat) (h : st.idle) : step st j LF = (.bol, []) := by
  have hne : LF ≠ '#' := by decide
  rcases h with rfl | rfl | ⟨p, rfl⟩ <;> simp [step, hne]

theorem idle_flush (st : Scan) (n : Nat) (h : st.idle) : flush st n = [] := by
  rcases h with rfl | rfl | ⟨p, rfl⟩ <;> rfl

/-- A line that is no heading line, read from a line start: nothing is found
and no match is open. -/
theorem run_plain_line (l : Text) (i : Nat) (hl : LF ∉ l) (hh : headingAt l = false) :
    emits .bol i l = [] ∧ (after .bol i l).idle := by
  have mid_of : ∀ (c : Char) (st : Scan) (j : Nat) (t : Text), LF ∉ c :: t →
      step st j c = (.mid, []) → emits st j (c :: t) = [] ∧ (after st j (c :: t)).idle := by
    intro c st j t hct hs
    have ht : LF ∉ t := fun e => hct (List.mem_cons_of_mem _ e)
    obtain ⟨e1, a1⟩ := run_mid t (j + 1) ht
    rw [emits, after, hs, e1, a1]
    exact ⟨rfl, Or.inr (Or.inl rfl)⟩
  match l, hl, hh with
  | [], _, _ => exact ⟨rfl, Or.inl rfl⟩
  | c0 :: l1, hl, hh =>
    have h0 : c0 ≠ LF := fun e => hl (by simp [e])
    have hl1 : LF ∉ l1 := fun e => hl (List.mem_cons_of_mem _ e)
    by_cases e0 : c0 = '#'
    · subst e0
      have s0 : step .bol i '#' = (.hash1 i, []) := by simp [step]
      rw [emits, after, s0, List.nil_append]
      match l1, hl1, hh with
      | [], _, _ => exact ⟨rfl, Or.inr (Or.inr ⟨i, rfl⟩)⟩
      | c1 :: l2, hl1, hh =>
        have h1 : c1 ≠ LF := fun e => hl1 (by simp [e])
        have hl2 : LF ∉ l2 := fun e => hl1 (List.mem_cons_of_mem _ e)
        by_cases e1 : c1 = '#'
        · subst e1
          have s1 : step (.hash1 i) (i + 1) '#' = (.hash2 i, []) := by simp [step]
          rw [emits, after, s1, List.nil_append]
          match l2, hl2, hh with
          | [], _, hh => simp [headingAt] at hh
          | c2 :: l3, hl2, hh =>
            have h2 : isSpace c2 = false := by simpa [headingAt] using hh
            exact mid_of c2 _ _ l3 hl2 (by simp [step, h2])
        · exact mid_of c1 _ _ l2 hl1 (by simp [step, e1, h1])
    · exact mid_of c0 _ _ l1 hl (by simp [step, e0, h0])

theorem text_cases (s : Text) :
    LF ∉ s ∨ ∃ a b, s = a ++ LF :: b ∧ LF ∉ a := by
  rcases lineEndLoop_cases s 0 with ⟨-, h⟩ | ⟨a, b, h1, h2, -⟩
  · exact Or.inl h
  · exact Or.inr ⟨a, b, h1, h2⟩

theorem splitOn_single (s : Text) (h : LF ∉ s) : s.splitOn LF = [s] := by
  apply List.splitOnP_eq_single
  intro x hx hx2
  have : x = LF := by simpa using hx2
  exact h (this ▸ hx)

theorem splitOn_first (a b : Text) (h : LF ∉ a) :
    (a ++ LF :: b).splitOn LF = a :: b.splitOn LF := by
  apply List.splitOnP_first
  · intro x hx hx2
    have : x = LF := by simpa using hx2
    exact h (this ▸ hx)
  · simp

/-- A text without heading line, read from a line start: nothing is found, no
match is left open, and the search is back at a line start when the text is
empty or ends with a line feed. -/
theorem run_noHeading (s : Text) (i : Nat) (h : NoHeadingLine s) :
    emits .bol i s = [] ∧ (after .bol i s).idle ∧
    (s = [] ∨ s.getLast? = some LF → after .bol i s = .bol) := by
  generalize hn : s.length = n
  induction n using Nat.strong_induction_on generalizing s i with
  | _ n ih =>
    rcases text_cases s with hs | ⟨a, b, rfl, ha⟩
    · have hh : headingAt s = false := h s (by rw [splitOn_single s hs]; simp)
      obtain ⟨e1, a1⟩ := run_plain_line s i hs hh
      refine ⟨e1, a1, ?_⟩
      rintro (rfl | hlast)
      · rfl
      · exfalso
        obtain ⟨ys, rfl⟩ := List.getLast?_eq_some_iff.1 hlast
        exact hs (by simp)
    · have hsplit := splitOn_first a b ha
      have hha : headingAt a = false := h a (by rw [hsplit]; simp)
      have hb : NoHeadingLine b := fun l hl => h l (by rw [hsplit]; simp [hl])
      obtain ⟨e1, a1⟩ := run_plain_line a i ha hha
      have hlen : b.length < n := by
        rw [← hn, List.length_append, List.length_cons]
        omega
      obtain ⟨e2, a2, l2⟩ := ih b.length hlen b (i + a.length + 1) hb rfl
      have hE : emits .bol i (a ++ LF :: b) = emits .bol (i + a.length + 1) b := by
        rw [emits_append, e1, List.nil_append, emits, idle_step_LF _ _ a1, List.nil_append]
      have hA : after .bol i (a ++ LF :: b) = after .bol (i + a.length + 1) b := by
        rw [after_append, after, idle_step_LF _ _ a1]
      rw [hE, hA]
      refine ⟨e2, a2, ?_⟩
      rintro (h0 | hlast)
      · simp at h0
      · apply l2
        cases b with
        | nil => exact Or.inl rfl
        | cons c b1 =>
          right
          rw [List.getLast?_append, List.getLast?_cons] at hlast
          rw [List.getLast?_cons] at hlast ⊢
          simpa using hlast

/-- A block made of a heading, a line feed and a body that holds no heading
and ends at a line start: one section, and the search ends at a line start. -/
theorem block_sections (w t body : Text) (hw0 : w ≠ [])
    (hw : ∀ c ∈ w, isSpace c = true) (ht : LF ∉ t)
    (ht0 : ∀ c ∈ t.head?, isSpace c = false) (ht1 : t ≠ [])
    (hq : ∀ i, emits .bol i body = [] ∧ after .bol i body = .bol) :
    SplitSections ('#' :: '#' :: (w ++ t) ++ LF :: body) = [⟨t, LF :: body⟩] ∧
    after .bol 0 ('#' :: '#' :: (w ++ t) ++ LF :: body) = .bol := by
  have hmid : scanFrom .mid 0 (LF :: body) = [] := by
    have s2 : step .mid 0 LF = (.bol, []) := by simp [step]
    rw [scanFrom, s2, List.nil_append, scanFrom_eq_emits_flush, (hq _).1, (hq _).2]
    rfl
  constructor
  · rw [heading_sections w t (LF :: body) hw0 hw ht ht0 (Or.inr ⟨body, rfl⟩)
      (fun h => absurd h ht1)]
    simp [headContent, tailSections, hmid, nextStart, sectionsTo]
  · obtain ⟨-, a1⟩ := run_heading w t 0 hw0 hw ht ht0
    have s1 : ∀ p q e, step (.title p q) e LF = (.bol, [⟨p, e, q, e⟩]) := by
      intro p q e
      simp [step]
    rw [after_append, a1, if_neg ht1, after, s1]
    exact (hq _).2

theorem quiet_run (c : Text) (h : QuietText c) (i : Nat) :
    emits .bol i c = [] ∧ after .bol i c = .bol := by
  obtain ⟨e1, -, a1⟩ := run_noHeading c i h.2
  exact ⟨e1, a1 h.1⟩

theorem quiet_sections (c : Text) (h : QuietText c) :
    SplitSections c = [] ∧ after .bol 0 c = .bol := by
  obtain ⟨e1, a1⟩ := quiet_run c h 0
  refine ⟨?_, a1⟩
  unfold SplitSections
  rw [findAll_eq_emits c a1, e1]
  rfl

theorem marker_block (t body : Text) :
    marker ++ t ++ [LF] ++ body = '#' :: '#' :: ([' '] ++ t) ++ LF :: body := by
  simp [marker]

theorem blocks_sections (blocks : List (Text × Text))
    (hb : ∀ b ∈ blocks, WellFormedTitle b.1 ∧ QuietText b.2) :
    SplitSections ((blocks.map fun b => marker ++ b.1 ++ [LF] ++ b.2).flatten) =
      blocks.map (fun b => ⟨b.1, LF :: b.2⟩) ∧
    ((blocks.map fun b => marker ++ b.1 ++ [LF] ++ b.2).flatten = [] ∨
      StartsHeading ((blocks.map fun b => marker ++ b.1 ++ [LF] ++ b.2).flatten)) := by
  induction blocks with
  | nil => exact ⟨rfl, Or.inl rfl⟩
  | cons b rest ih =>
    obtain ⟨⟨t1, t2, t3⟩, hq⟩ := hb b (List.mem_cons_self _ _)
    obtain ⟨ih1, ih2⟩ := ih (fun x hx => hb x (List.mem_cons_of_mem _ hx))
    have hsp : ∀ c ∈ [' '], isSpace c = true := by
      intro c hc
      rw [List.mem_singleton.1 hc]
      rfl
    obtain ⟨b1, b2⟩ := block_sections [' '] b.1 b.2 (by simp) hsp t2 t3 t1 (quiet_run b.2 hq)
    rw [← marker_block] at b1 b2
    rw [List.map_cons, List.flatten_cons]
    constructor
    · rw [SplitSections_append _ _ b2 ih2, b1, ih1]
      rfl
    · right
      exact ⟨' ', b.1 ++ [LF] ++ b.2 ++
        (rest.map fun b => marker ++ b.1 ++ [LF] ++ b.2).flatten, by simp [marker], rfl⟩

/-- A match ends at a line feed or at the end of the text. -/
theorem scanFrom_end (s : Text) (st : Scan) (i : Nat) :
    ∀ m ∈ scanFrom st i s, m.m1 = i + s.length ∨ ∃ k, m.m1 = i + k ∧ s[k]? = some LF := by
  induction s generalizing st i with
  | nil =>
    intro m hm
    left
    cases st <;> simp only [scanFrom, flush, List.mem_singleton, List.not_mem_nil] at hm <;>
      subst hm <;> rfl
  | cons c cs ih =>
    intro m hm
    rw [scanFrom, List.mem_append] at hm
    rcases hm with hm | hm
    · right
      refine ⟨0, ?_, ?_⟩
      · cases st <;> simp only [step] at hm <;> split_ifs at hm <;>
          simp only [List.mem_singleton, List.not_mem_nil] at hm
        subst hm
        rfl
      · cases st <;> simp only [step] at hm <;> split_ifs at hm with hc <;>
          simp only [List.mem_singleton, List.not_mem_nil] at hm
        simp [hc]
    · rcases ih _ _ m hm with h | ⟨k, h1, h2⟩
      · left
        rw [h, List.length_cons]
        omega
      · right
        exact ⟨k + 1, by omega, by simpa using h2⟩

theorem sectionsOf_getElem? (md : Text) (ms : List Loc) (i : Nat) (m : Loc)
    (h : ms[i]? = some m) :
    (sectionsOf md ms)[i]? = some ⟨slice md m.m2 m.m3,
      slice md m.m1 (match ms[i + 1]? with
        | some nx => nx.m0
        | none => md.length)⟩ := by
  induction ms generalizing i with
  | nil => simp at h
  | cons a rest ih =>
    cases i with
    | zero =>
      have ha : a = m := by simpa using h
      subst ha
      cases rest <;> simp [sectionsOf]
    | succ j =>
      have hj : rest[j]? = some m := by simpa using h
      have := ih j hj
      simpa [sectionsOf] using this

theorem getElem?_middle {α : Type} (l : List α) (a : α) (r : List α) :
    (l ++ a :: r)[l.length]? = some a := by
  rw [List.getElem?_append_right (le_refl _)]
  simp

theorem preamble_append (a r : Text) (ha : after .bol 0 a = .bol) (hr : StartsHeading r) :
    preamble (a ++ r) = preamble a := by
  obtain ⟨m, rest, h1, h2⟩ := heading_first r 0 hr
  have hall : FindAllStringSubmatchIndex (a ++ r) =
      emits .bol 0 a ++ (m :: rest).map (Loc.shift a.length) := by
    unfold FindAllStringSubmatchIndex
    rw [scanFrom_append, ha, Nat.zero_add, scanFrom_bol_shift, h1]
  unfold preamble
  rw [hall, findAll_eq_emits a ha]
  cases he : emits .bol 0 a with
  | nil =>
    simp [nextStart, Loc.shift, h2]
  | cons x xs =>
    have hx : x ∈ emits .bol 0 a := by rw [he]; simp
    have := (emits_within a .bol 0 trivial x hx).1
    simp only [Loc.within, Nat.zero_add] at this
    simp only [List.cons_append, nextStart]
    rw [List.take_append_of_le_length (by omega)]

/-- The body that `SavePage` writes after the heading, less its first line
feed: read from a line start it holds no heading and ends at a line start. -/
theorem saved_body_quiet (html : Text) (hh : NoHeadingLine html) (i : Nat) :
    emits .bol i (LF :: (html ++ [LF])) = [] ∧ after .bol i (LF :: (html ++ [LF])) = .bol := by
  have s0 : step .bol i LF = (.bol, []) := idle_step_LF _ _ (Or.inl rfl)
  obtain ⟨e1, a1, -⟩ := run_noHeading html (i + 1) hh
  constructor
  · rw [emits, s0, List.nil_append, emits_append, e1, List.nil_append, emits,
      idle_step_LF _ _ a1]
    rfl
  · rw [after, s0, after_append, after, idle_step_LF _ _ a1]
    rfl

/-- The block that `SavePage` writes, for a well-formed title and a body
without heading line: one section, and the search ends at a line start. -/
theorem saved_block (newTitle html : Text) (hn : WellFormedTitle newTitle)
    (hh : NoHeadingLine html) :
    SplitSections (marker ++ newTitle ++ [LF, LF] ++ html ++ [LF]) =
      [⟨newTitle, [LF, LF] ++ html ++ [LF]⟩] ∧
    after .bol 0 (marker ++ newTitle ++ [LF, LF] ++ html ++ [LF]) = .bol ∧
    StartsHeading (marker ++ newTitle ++ [LF, LF] ++ html ++ [LF]) := by
  have hsp : ∀ c ∈ [' '], isSpace c = true := by
    intro c hc
    rw [List.mem_singleton.1 hc]
    rfl
  have e : marker ++ newTitle ++ [LF, LF] ++ html ++ [LF] =
      '#' :: '#' :: ([' '] ++ newTitle) ++ LF :: (LF :: (html ++ [LF])) := by
    simp [marker]
  obtain ⟨b1, b2⟩ := block_sections [' '] newTitle (LF :: (html ++ [LF])) (by simp) hsp
    hn.2.1 hn.2.2 hn.1 (saved_body_quiet html hh)
  rw [e]
  refine ⟨?_, b2, ⟨' ', _, rfl, rfl⟩⟩
  rw [b1]
  simp

/-- The sections after `SavePage`, for a well-formed new title and a body
without heading line: the first section titled `oldTitle` is replaced, the
sections before and after it are the same. -/
theorem savePage_sections (oldTitle newTitle html : Text) (s : Store)
    (before : List Section) (sec : Section) (rest : List Section)
    (h1 : SplitSections (ReadAll s) = before ++ sec :: rest)
    (h2 : ∀ x ∈ before, x.Title ≠ oldTitle) (h3 : sec.Title = oldTitle)
    (hn : WellFormedTitle newTitle) (hh : NoHeadingLine html) :
    (SavePage oldTitle newTitle html s).1 = .ok () ∧
    SplitSections (ReadAll (SavePage oldTitle newTitle html s).2) =
      before ++ ⟨newTitle, [LF, LF] ++ html ++ [LF]⟩ :: rest ∧
    preamble (ReadAll (SavePage oldTitle newTitle html s).2) = preamble (ReadAll s) := by
  have hft : findTitle oldTitle 0 (SplitSections (ReadAll s)) = some before.length := by
    rcases findTitle_cases oldTitle (SplitSections (ReadAll s)) 0 with
      ⟨-, hno⟩ | ⟨bf, sc, rs, g1, g2, g3, g4⟩
    · exact absurd h3 (hno sec (by rw [h1]; simp))
    · rw [g4, Nat.zero_add]
      congr 1
      by_contra hne
      rcases Nat.lt_or_gt_of_ne hne with hlt | hgt
      · have e1 : (SplitSections (ReadAll s))[bf.length]? = some sc := by
          rw [g1]; exact getElem?_middle _ _ _
        rw [h1, List.getElem?_append_left hlt] at e1
        exact h2 sc (List.getElem?_mem e1) g3
      · have e1 : (SplitSections (ReadAll s))[before.length]? = some sec := by
          rw [h1]; exact getElem?_middle _ _ _
        rw [g1, List.getElem?_append_left hgt] at e1
        exact g2 sec (List.getElem?_mem e1) h3
  have hlen : before.length < (FindAllStringSubmatchIndex (ReadAll s)).length := by
    rw [← SplitSections_length, h1]
    simp
  have hm : (FindAllStringSubmatchIndex (ReadAll s))[before.length]? =
      some ((FindAllStringSubmatchIndex (ReadAll s))[before.length]) :=
    List.getElem?_eq_getElem hlen
  obtain ⟨b1, b2, b3⟩ := span_bounds (ReadAll s) before.length _ hm
  obtain ⟨c1, c2, c3, c4⟩ := cut_sections (ReadAll s) before.length _ hm
  have hne : (SplitSections (ReadAll s)).length ≠ 0 := by
    rw [h1]; simp
  obtain ⟨x1, x2, x3⟩ := saved_block newTitle html hn hh
  -- the text after the replaced span
  have htail : ∃ c, (c = [] ∨ StartsHeading c) ∧ SplitSections c = rest ∧
      SavePage oldTitle newTitle html s =
        (.ok (), ⟨some ((ReadAll s).take (FindAllStringSubmatchIndex (ReadAll s))[before.length].m0 ++
          ((marker ++ newTitle ++ [LF, LF] ++ html ++ [LF]) ++ c))⟩) := by
    by_cases hlt : before.length + 1 < (FindAllStringSubmatchIndex (ReadAll s)).length
    · have hm1 := List.getElem?_eq_getElem hlt
      obtain ⟨-, d2, -, d4⟩ := cut_sections (ReadAll s) (before.length + 1) _ hm1
      refine ⟨_, Or.inr d2, ?_, ?_⟩
      · rw [d4, h1]
        simp
      · simp only [SavePage, hne, if_false, hft, startAt, hm, endAt, hlt, if_true, hm1,
          WriteAll, List.append_assoc]
    · refine ⟨[], Or.inl rfl, ?_, ?_⟩
      · have hl : (SplitSections (ReadAll s)).length = before.length + 1 := by
          rw [SplitSections_length]
          omega
        rw [h1, List.length_append, List.length_cons] at hl
        have : rest.length = 0 := by omega
        rw [List.length_eq_zero.1 this]
        rfl
      · simp only [SavePage, hne, if_false, hft, startAt, hm, endAt, hlt, WriteAll,
          List.append_assoc, List.drop_length, List.append_nil]
  obtain ⟨c, hc1, hc2, hsave⟩ := htail
  have hX : StartsHeading ((marker ++ newTitle ++ [LF, LF] ++ html ++ [LF]) ++ c) := by
    obtain ⟨ch, r, e, hch⟩ := x3
    exact ⟨ch, r ++ c, by rw [e]; rfl, hch⟩
  have hbefore : SplitSections
      ((ReadAll s).take (FindAllStringSubmatchIndex (ReadAll s))[before.length].m0) = before := by
    rw [c3, h1]
    simp
  rw [hsave]
  refine ⟨rfl, ?_, ?_⟩
  · show SplitSections (_ ++ (_ ++ c)) = _
    rw [SplitSections_append _ _ c1 (Or.inr hX), SplitSections_append _ _ x2 hc1, hbefore, x1,
      hc2]
    rfl
  · show preamble (_ ++ (_ ++ c)) = _
    rw [preamble_append _ _ c1 hX]
    conv_rhs => rw [← List.take_append_drop
      (FindAllStringSubmatchIndex (ReadAll s))[before.length].m0 (ReadAll s)]
    rw [preamble_append _ _ c1 c2]

theorem split_run (p : Char → Bool) (l : Text) :
    ∃ a b, l = a ++ b ∧ (∀ x ∈ a, p x = true) ∧ (∀ x ∈ b.head?, p x = false) := by
  induction l with
  | nil => exact ⟨[], [], rfl, by simp, by simp⟩
  | cons c cs ih =>
    by_cases hc : p c = true
    · obtain ⟨a, b, h1, h2, h3⟩ := ih
      refine ⟨c :: a, b, by rw [h1]; rfl, ?_, h3⟩
      intro x hx
      rcases List.mem_cons.1 hx with rfl | hx
      · exact hc
      · exact h2 x hx
    · refine ⟨[], c :: cs, rfl, by simp, ?_⟩
      intro x hx
      have : x = c := by simpa using hx.symm
      rw [this]
      simpa using hc

/-- The shape of a text that begins with a heading: `##`, a run of whitespace,
a title without line feed that does not begin with whitespace, and a rest that
is empty or begins with the line feed that ends the title. -/
theorem heading_shape (b : Text) (h : StartsHeading b) :
    ∃ w t rest, b = '#' :: '#' :: (w ++ t) ++ rest ∧ w ≠ [] ∧
      (∀ c ∈ w, isSpace c = true) ∧ LF ∉ t ∧ (∀ c ∈ t.head?, isSpace c = false) ∧
      (rest = [] ∨ ∃ r, rest = LF :: r) ∧ (t = [] → rest = []) := by
  obtain ⟨c, r, rfl, hc⟩ := h
  obtain ⟨w, u, h1, h2, h3⟩ := split_run isSpace (c :: r)
  obtain ⟨t, rest, g1, g2, g3⟩ := split_run (fun x => decide (x ≠ LF)) u
  have hw0 : w ≠ [] := by
    rintro rfl
    rw [List.nil_append] at h1
    rw [← h1] at h3
    have := h3 c (by simp)
    rw [hc] at this
    cases this
  have ht : LF ∉ t := by
    intro hmem
    have := g2 LF hmem
    simp at this
  have hrest : rest = [] ∨ ∃ r, rest = LF :: r := by
    cases rest with
    | nil => exact Or.inl rfl
    | cons x xs =>
      right
      have := g3 x (by simp)
      have hx : x = LF := by simpa using this
      exact ⟨xs, by rw [hx]⟩
  have ht0 : ∀ c ∈ t.head?, isSpace c = false := by
    intro x hx
    apply h3 x
    rw [g1]
    cases t with
    | nil => simp at hx
    | cons y ys => simpa using hx
  have hempty : t = [] → rest = [] := by
    rintro rfl
    rcases hrest with h0 | ⟨r1, rfl⟩
    · exact h0
    · exfalso
      rw [List.nil_append] at g1
      have := h3 LF (by rw [g1]; simp)
      rw [isSpace_LF] at this
      cases this
  refine ⟨w, t, rest, ?_, hw0, h2, ht, ht0, hrest, hempty⟩
  rw [h1, g1]
  simp

theorem lineEndLoop_line (a x : Text) (j : Nat) (ha : LF ∉ a)
    (hx : x = [] ∨ ∃ r, x = LF :: r) :
    (match lineEndLoop (a ++ x) j with
      | some k => k
      | none => j + (a ++ x).length) = j + a.length := by
  induction a generalizing j with
  | nil =>
    rcases hx with rfl | ⟨r, rfl⟩
    · rfl
    · simp [lineEndLoop]
  | cons c cs ih =>
    have hc : c ≠ LF := fun e => ha (by simp [e])
    have hcs : LF ∉ cs := fun e => ha (List.mem_cons_of_mem _ e)
    have := ih (j + 1) hcs
    simp only [List.cons_append, lineEndLoop, hc, if_false, List.length_cons]
    have e1 : j + ((cs ++ x).length + 1) = j + 1 + (cs ++ x).length := by omega
    have e2 : j + (cs.length + 1) = j + 1 + cs.length := by omega
    rw [e1, e2]
    exact this

theorem findTitle_first (oldTitle : Text) (secs before : List Section) (sec : Section)
    (rest : List Section) (h1 : secs = before ++ sec :: rest)
    (h2 : ∀ x ∈ before, x.Title ≠ oldTitle) (h3 : sec.Title = oldTitle) :
    findTitle oldTitle 0 secs = some before.length := by
  rcases findTitle_cases oldTitle secs 0 with ⟨-, hno⟩ | ⟨bf, sc, rs, g1, g2, g3, g4⟩
  · exact absurd h3 (hno sec (by rw [h1]; simp))
  · rw [g4, Nat.zero_add]
    congr 1
    by_contra hne
    rcases Nat.lt_or_gt_of_ne hne with hlt | hgt
    · have e1 : secs[bf.length]? = some sc := by
        rw [g1]; exact getElem?_middle _ _ _
      rw [h1, List.getElem?_append_left hlt] at e1
      exact h2 sc (List.getElem?_mem e1) g3
    · have e1 : secs[before.length]? = some sec := by
        rw [h1]; exact getElem?_middle _ _ _
      rw [g1, List.getElem?_append_left hgt] at e1
      exact g2 sec (List.getElem?_mem e1) h3

/-- The sections after `RenameSection`, for a well-formed new title and a
heading whose title stands on the line of its marker: the first section titled
`oldTitle` gets the new title and keeps its content, the other sections are
the same. -/
theorem renameSection_sections (oldTitle newTitle : Text) (s : Store)
    (before : List Section) (sec : Section) (rest : List Section) (m : Loc)
    (h1 : SplitSections (ReadAll s) = before ++ sec :: rest)
    (h2 : ∀ x ∈ before, x.Title ≠ oldTitle) (h3 : sec.Title = oldTitle)
    (hm : (FindAllStringSubmatchIndex (ReadAll s))[before.length]? = some m)
    (hline : LF ∉ slice (ReadAll s) m.m0 m.m2) (hn : WellFormedTitle newTitle) :
    (RenameSection oldTitle newTitle s).1 = .ok () ∧
    SplitSections (ReadAll (RenameSection oldTitle newTitle s).2) =
      before ++ ⟨newTitle, sec.Content⟩ :: rest ∧
    preamble (ReadAll (RenameSection oldTitle newTitle s).2) = preamble (ReadAll s) := by
  have hft := findTitle_first oldTitle _ before sec rest h1 h2 h3
  obtain ⟨c1, c2, c3, c4⟩ := cut_sections (ReadAll s) before.length m hm
  obtain ⟨-, -, -, c5⟩ := cut_at_match (ReadAll s) before.length m hm
  obtain ⟨w, t, rest1, hb, hw0, hw, ht, ht0, hrest, hempty⟩ :=
    heading_shape ((ReadAll s).drop m.m0) c2
  have hbefore : SplitSections ((ReadAll s).take m.m0) = before := by
    rw [c3, h1]
    simp
  have hafter : SplitSections ((ReadAll s).drop m.m0) = sec :: rest := by
    rw [c4, h1]
    simp
  have hsec : sec = ⟨t, headContent rest1⟩ ∧ rest = tailSections rest1 := by
    have := heading_sections w t rest1 hw0 hw ht ht0 hrest hempty
    rw [← hb, hafter] at this
    simpa using this
  -- the offsets of the match
  have hj : before.length < (FindAllStringSubmatchIndex (ReadAll s)).length :=
    (List.getElem?_eq_some.1 hm).1
  have hm2 : m.m2 = 2 + w.length + m.m0 := by
    have hd : (FindAllStringSubmatchIndex (ReadAll s)).drop before.length =
        m :: (FindAllStringSubmatchIndex (ReadAll s)).drop (before.length + 1) := by
      rw [List.drop_eq_getElem_cons hj]
      congr 1
      have := List.getElem?_eq_getElem hj
      rw [hm] at this
      exact (Option.some.inj this).symm
    have hmt := heading_matches w t rest1 hw0 hw ht ht0 hrest hempty
    rw [← hb] at hmt
    unfold FindAllStringSubmatchIndex at hmt
    rw [scanFrom_bol_shift, hmt, hd, List.map_cons] at c5
    have e := congrArg Loc.m2 (List.cons.inj c5).1
    simp only [Loc.shift] at e
    omega
  have hw1 := findAll_within (ReadAll s) m (List.getElem?_mem hm)
  have hlen : (ReadAll s).length = m.m0 + ((ReadAll s).drop m.m0).length := by
    simp only [Loc.within] at hw1
    rw [List.length_drop]
    omega
  have hwl : LF ∉ w := by
    intro hmem
    apply hline
    have e : slice (ReadAll s) m.m0 m.m2 = '#' :: '#' :: w := by
      have e1 : m.m2 - m.m0 = ('#' :: '#' :: w).length := by
        rw [hm2, List.length_cons, List.length_cons]
        omega
      unfold slice
      rw [hb, e1]
      have e2 : '#' :: '#' :: (w ++ t) ++ rest1 = ('#' :: '#' :: w) ++ (t ++ rest1) := by simp
      rw [e2, List.take_left]
    rw [e]
    simp [hmem]
  have hhd : LF ∉ '#' :: '#' :: (w ++ t) := by
    have hne : LF ≠ '#' := by decide
    simp only [List.mem_cons, List.mem_append, not_or]
    exact ⟨hne, hne, hwl, ht⟩
  have hle : lineEndFrom (ReadAll s) m.m0 = m.m0 + ('#' :: '#' :: (w ++ t)).length := by
    have := lineEndLoop_line _ rest1 m.m0 hhd hrest
    rw [← hb] at this
    unfold lineEndFrom
    rw [hlen]
    exact this
  have hdrop : (ReadAll s).drop (m.m0 + ('#' :: '#' :: (w ++ t)).length) = rest1 := by
    rw [← List.drop_drop, hb, List.drop_left]
  have hren : RenameSection oldTitle newTitle s =
      (.ok (), ⟨some ((ReadAll s).take m.m0 ++
        ('#' :: '#' :: ([' '] ++ newTitle) ++ rest1))⟩) := by
    simp only [RenameSection, hft, startAt, hm, hle, hdrop, WriteAll, marker]
    simp
  have hsp : ∀ c ∈ [' '], isSpace c = true := by
    intro c hc
    rw [List.mem_singleton.1 hc]
    rfl
  have hnew := heading_sections [' '] newTitle rest1 (by simp) hsp hn.2.1 hn.2.2 hrest
    (fun h => absurd h hn.1)
  have hX : StartsHeading ('#' :: '#' :: ([' '] ++ newTitle) ++ rest1) :=
    ⟨' ', newTitle ++ rest1, by simp, rfl⟩
  rw [hren]
  refine ⟨rfl, ?_, ?_⟩
  · show SplitSections (_ ++ _) = _
    rw [SplitSections_append _ _ c1 (Or.inr hX), hbefore, hnew, hsec.1, hsec.2]
  · show preamble (_ ++ _) = _
    rw [preamble_append _ _ c1 hX]
    conv_rhs => rw [← List.take_append_drop m.m0 (ReadAll s)]
    rw [preamble_append _ _ c1 c2]

theorem sectionsOf_titles (md : Text) (ms : List Loc) :
    (sectionsOf md ms).map Section.Title = ms.map (fun m => slice md m.m2 m.m3) := by
  induction ms with
  | nil => rfl
  | cons m rest ih =>
    simp only [sectionsOf, List.map_cons, ih]

/-- The titles of two pieces put together, when the first piece ends at a line
start with no match open. -/
theorem titlesOf_append (a r : Text) (ha : after .bol 0 a = .bol) :
    titlesOf (a ++ r) = titlesOf a ++ titlesOf r := by
  have hall : FindAllStringSubmatchIndex (a ++ r) =
      emits .bol 0 a ++ (scanFrom .bol 0 r).map (Loc.shift a.length) := by
    unfold FindAllStringSubmatchIndex
    rw [scanFrom_append, ha, Nat.zero_add, scanFrom_bol_shift]
  unfold titlesOf SplitSections
  rw [sectionsOf_titles, sectionsOf_titles, sectionsOf_titles, hall, findAll_eq_emits a ha,
    List.map_append, List.map_map]
  congr 1
  · apply List.map_congr_left
    intro m hm
    have := (emits_within a .bol 0 trivial m hm).1
    simp only [Loc.within, Nat.zero_add] at this
    exact slice_append_left _ _ _ _ (by omega)
  · apply List.map_congr_left
    intro m _
    simp only [Function.comp, Loc.shift, slice_append_right]

theorem dropWhile_run (w t : Text) (hw : ∀ c ∈ w, isSpace c = true)
    (ht0 : ∀ c ∈ t.head?, isSpace c = false) :
    (w ++ t).dropWhile isSpace = t := by
  induction w with
  | nil =>
    cases t with
    | nil => rfl
    | cons d t1 =>
      have := ht0 d (by simp)
      simp [List.dropWhile, this]
  | cons c cs ih =>
    have hc := hw c (by simp)
    rw [List.cons_append, List.dropWhile_cons, hc]
    exact ih (fun x hx => hw x (List.mem_cons_of_mem _ hx))

theorem line_shape (l : Text) :
    (∃ c r, l = '#' :: '#' :: c :: r ∧ isSpace c = true) ∨ l = ['#', '#'] ∨
    (headingAt l = false ∧ headingTitle l = none) := by
  match l with
  | [] => exact Or.inr (Or.inr ⟨rfl, rfl⟩)
  | [c0] =>
    right; right
    by_cases e0 : c0 = '#'
    · subst e0; exact ⟨rfl, rfl⟩
    · exact ⟨by simp [headingAt], by simp [headingTitle]⟩
  | [c0, c1] =>
    by_cases e0 : c0 = '#'
    · by_cases e1 : c1 = '#'
      · subst e0 e1
        exact Or.inr (Or.inl rfl)
      · right; right
        exact ⟨by simp [headingAt, e1], by simp [headingTitle]⟩
    · right; right
      exact ⟨by simp [headingAt, e0], by simp [headingTitle]⟩
  | c0 :: c1 :: c2 :: r =>
    by_cases e0 : c0 = '#'
    · by_cases e1 : c1 = '#'
      · by_cases e2 : isSpace c2 = true
        · subst e0 e1
          exact Or.inl ⟨c2, r, rfl, e2⟩
        · subst e0 e1
          right; right
          exact ⟨by simpa [headingAt] using e2, by simp [headingTitle, e2]⟩
      · right; right
        exact ⟨by simp [headingAt, e1], by simp [headingTitle, e1]⟩
    · right; right
      exact ⟨by simp [headingAt, e0], by simp [headingTitle, e0]⟩

/-- One line read from a line start: it yields its title when it is a heading
line, nothing otherwise, and with its line feed it leaves the search at a line
start. -/
theorem line_titles (l : Text) (hl : LF ∉ l) (hb : bareMarker l = false) :
    titlesOf (l ++ [LF]) = (headingTitle l).toList ∧ after .bol 0 (l ++ [LF]) = .bol ∧
    titlesOf l = (headingTitle l).toList := by
  rcases line_shape l with ⟨c, r, rfl, hc⟩ | rfl | ⟨h1, h2⟩
  · obtain ⟨w, t, e, hw, ht0⟩ := split_run isSpace (c :: r)
    have hw0 : w ≠ [] := by
      rintro rfl
      rw [List.nil_append] at e
      have := ht0 c (by rw [← e]; simp)
      rw [hc] at this
      cases this
    have ht1 : t ≠ [] := by
      rintro rfl
      rw [List.append_nil] at e
      have : bareMarker ('#' :: '#' :: c :: r) = true := by
        simp only [bareMarker, e, List.all_eq_true]
        exact hw
      rw [hb] at this
      cases this
    have ht : LF ∉ t := by
      intro hmem
      apply hl
      have : LF ∈ c :: r := by rw [e]; simp [hmem]
      exact List.mem_cons_of_mem _ (List.mem_cons_of_mem _ this)
    have hT : headingTitle ('#' :: '#' :: c :: r) = some t := by
      simp only [headingTitle, hc, if_true]
      rw [e, dropWhile_run w t hw ht0]
    have hq : ∀ i, emits .bol i ([] : Text) = [] ∧ after .bol i ([] : Text) = .bol :=
      fun _ => ⟨rfl, rfl⟩
    obtain ⟨b1, b2⟩ := block_sections w t [] hw0 hw ht ht0 ht1 hq
    have hs := heading_sections w t [] hw0 hw ht ht0 (Or.inl rfl) (fun h => absurd h ht1)
    have e1 : '#' :: '#' :: c :: r ++ [LF] = '#' :: '#' :: (w ++ t) ++ [LF] := by
      rw [← e]
    have e2 : '#' :: '#' :: c :: r = '#' :: '#' :: (w ++ t) ++ [] := by
      rw [← e, List.append_nil]
    rw [hT]
    refine ⟨?_, ?_, ?_⟩
    · unfold titlesOf
      rw [e1, b1]
      rfl
    · rw [e1, b2]
    · unfold titlesOf
      rw [e2, hs]
      rfl
  · exact absurd hb (by decide)
  · obtain ⟨e1, a1⟩ := run_plain_line l 0 hl h1
    have hE : emits .bol 0 (l ++ [LF]) = [] := by
      rw [emits_append, e1, List.nil_append, emits, idle_step_LF _ _ a1]
      rfl
    have hA : after .bol 0 (l ++ [LF]) = .bol := by
      rw [after_append, after, idle_step_LF _ _ a1]
      rfl
    rw [h2]
    refine ⟨?_, hA, ?_⟩
    · unfold titlesOf SplitSections
      rw [findAll_eq_emits _ hA, hE]
      rfl
    · unfold titlesOf SplitSections FindAllStringSubmatchIndex
      rw [scanFrom_eq_emits_flush, e1, idle_flush _ _ a1]
      rfl

theorem after_bol_last (s : Text) (st : Scan) (i : Nat) (h : after st i s = .bol) :
    (s = [] ∧ st = .bol) ∨ s.getLast? = some LF := by
  induction s generalizing st i with
  | nil => exact Or.inl ⟨rfl, h⟩
  | cons c cs ih =>
    right
    rw [after] at h
    rcases ih _ _ h with ⟨rfl, h1⟩ | h1
    · have hc : c = LF := by
        cases st <;> simp only [step] at h1 <;> split_ifs at h1 <;> simp_all
      rw [hc]
      rfl
    · rw [List.getLast?_cons, h1]
      rfl

/-- What a match is, in terms of the text: it starts at a line start, with
`##`, a run of whitespace that cannot be extended, and a title that runs to the
next line feed or to the end of the text; the offsets of the match are those of
these pieces. -/
theorem findAll_match_shape (md : Text) (j : Nat) (m : Loc)
    (h : (FindAllStringSubmatchIndex md)[j]? = some m) :
    (md.take m.m0 = [] ∨ (md.take m.m0).getLast? = some LF) ∧
    ∃ w t rest, md.drop m.m0 = '#' :: '#' :: (w ++ t) ++ rest ∧ w ≠ [] ∧
      (∀ c ∈ w, isSpace c = true) ∧ LF ∉ t ∧ (∀ c ∈ t.head?, isSpace c = false) ∧
      (rest = [] ∨ ∃ r, rest = LF :: r) ∧ (t = [] → rest = []) ∧
      m = ⟨m.m0, m.m0 + (2 + w.length + t.length), m.m0 + (2 + w.length),
        m.m0 + (2 + w.length + t.length)⟩ := by
  obtain ⟨c1, c2, -, c5⟩ := cut_at_match md j m h
  obtain ⟨w, t, rest, hb, hw0, hw, ht, ht0, hrest, hempty⟩ := heading_shape (md.drop m.m0) c2
  have hj : j < (FindAllStringSubmatchIndex md).length := (List.getElem?_eq_some.1 h).1
  have hd : (FindAllStringSubmatchIndex md).drop j =
      m :: (FindAllStringSubmatchIndex md).drop (j + 1) := by
    rw [List.drop_eq_getElem_cons hj]
    congr 1
    have := List.getElem?_eq_getElem hj
    rw [h] at this
    exact (Option.some.inj this).symm
  have hmt := heading_matches w t rest hw0 hw ht ht0 hrest hempty
  rw [← hb] at hmt
  unfold FindAllStringSubmatchIndex at hmt
  rw [scanFrom_bol_shift, hmt, hd, List.map_cons] at c5
  have e := (List.cons.inj c5).1
  refine ⟨?_, w, t, rest, hb, hw0, hw, ht, ht0, hrest, hempty, ?_⟩
  · rcases after_bol_last _ _ _ c1 with ⟨h0, -⟩ | h1
    · exact Or.inl h0
    · exact Or.inr h1
  · have e0 := congrArg Loc.m0 e
    have e1 := congrArg Loc.m1 e
    have e2 := congrArg Loc.m2 e
    have e3 := congrArg Loc.m3 e
    simp only [Loc.shift] at e0 e1 e2 e3
    obtain ⟨a0, a1, a2, a3⟩ := m
    simp only at e0 e1 e2 e3
    simp only [Loc.mk.injEq]
    refine ⟨trivial, ?_, ?_, ?_⟩ <;> omega

theorem marker_startsHeading (r : Text) : StartsHeading (marker ++ r) :=
  ⟨' ', r, rfl, rfl⟩

/-- A splice that puts a heading at the start of a match keeps the preamble. -/
theorem splice_preamble (md : Text) (j : Nat) (m : Loc) (r : Text)
    (h : (FindAllStringSubmatchIndex md)[j]? = some m) :
    preamble (md.take m.m0 ++ (marker ++ r)) = preamble md := by
  obtain ⟨c1, c2, -, -⟩ := cut_sections md j m h
  rw [preamble_append _ _ c1 (marker_startsHeading r)]
  conv_rhs => rw [← List.take_append_drop m.m0 md]
  rw [preamble_append _ _ c1 c2]

theorem EncodeToString_cons (v : Fin 256) (bs : List (Fin 256)) :
    EncodeToString (v :: bs) =
      hexDigit (v.val / 16) :: hexDigit (v.val % 16) :: EncodeToString bs := by
  simp [EncodeToString, List.flatMap_cons]

theorem EncodeToString_length (bs : List (Fin 256)) :
    (EncodeToString bs).length = 2 * bs.length := by
  induction bs with
  | nil => rfl
  | cons v bs ih =>
    rw [EncodeToString_cons, List.length_cons, List.length_cons, ih, List.length_cons]
    omega

theorem hexDigit_mem (n : Nat) (h : n < 16) : hexDigit n ∈ "0123456789abcdef".toList := by
  have : ∀ k : Fin 16, hexDigit k.val ∈ "0123456789abcdef".toList := by decide
  exact this ⟨n, h⟩

theorem EncodeToString_hex (bs : List (Fin 256)) :
    ∀ c ∈ EncodeToString bs, c ∈ "0123456789abcdef".toList := by
  induction bs with
  | nil => simp [EncodeToString]
  | cons v bs ih =>
    intro c hc
    rw [EncodeToString_cons] at hc
    rcases List.mem_cons.1 hc with rfl | hc
    · exact hexDigit_mem _ (by have := v.isLt; omega)
    · rcases List.mem_cons.1 hc with rfl | hc
      · exact hexDigit_mem _ (by omega)
      · exact ih c hc

theorem lookupContent_first (title : Text) (before : List Section) (sec : Section)
    (rest : List Section) (h2 : ∀ x ∈ before, x.Title ≠ title) (h3 : sec.Title = title) :
    lookupContent title (before ++ sec :: rest) = some sec.Content := by
  induction before with
  | nil => simp [lookupContent, h3]
  | cons a l ih =>
    have ha : a.Title ≠ title := h2 a (List.mem_cons_self _ _)
    simp only [List.cons_append, lookupContent, ha, if_false]
    exact ih (fun x hx => h2 x (List.mem_cons_of_mem _ hx))

theorem noHeading_sections (md : Text) (h : NoHeadingLine md) : SplitSections md = [] := by
  obtain ⟨e1, a1, -⟩ := run_noHeading md 0 h
  unfold SplitSections FindAllStringSubmatchIndex
  rw [scanFrom_eq_emits_flush, e1, idle_flush _ _ a1]
  rfl

/-- The title of a match, in terms of the text: it is the piece `t` of the
shape of the match. -/
theorem match_title (md : Text) (j : Nat) (m : Loc)
    (h : (FindAllStringSubmatchIndex md)[j]? = some m) :
    LF ∉ slice md m.m2 m.m3 ∧ ∀ c ∈ (slice md m.m2 m.m3).head?, isSpace c = false := by
  obtain ⟨-, w, t, rest, hb, -, -, ht, ht0, -, -, hm⟩ := findAll_match_shape md j m h
  have h2 : m.m2 = m.m0 + (2 + w.length) := by rw [hm]
  have h3 : m.m3 = m.m0 + (2 + w.length + t.length) := by rw [hm]
  have e : slice md m.m2 m.m3 = t := by
    unfold slice
    have e1 : m.m3 - m.m2 = t.length := by omega
    have e2 : '#' :: '#' :: (w ++ t) ++ rest = ('#' :: '#' :: w) ++ (t ++ rest) := by simp
    have e3 : 2 + w.length = ('#' :: '#' :: w).length := by
      simp only [List.length_cons]
      omega
    rw [e1, h2, ← List.drop_drop, hb, e2, e3, List.drop_left, List.take_left]
  rw [e]
  exact ⟨ht, ht0⟩

theorem sliceChecked_ok (md : Text) (a b : Nat) (h1 : a ≤ b) (h2 : b ≤ md.length) :
    sliceChecked md a b = some (slice md a b) := by
  simp [sliceChecked, h1, h2]

theorem slice_head (md : Text) (k : Nat) : slice md 0 k = md.take k := by
  simp [slice]

theorem slice_tail (md : Text) (k : Nat) : slice md k md.length = md.drop k := by
  unfold slice
  rw [List.take_of_length_le]
  rw [List.length_drop]

theorem sectionsOfChecked_ok (md : Text) (ms : List Loc)
    (hw : ∀ m ∈ ms, m.within 0 md.length) (hp : ms.Pairwise (fun x y => x.m1 < y.m0)) :
    sectionsOfChecked md ms = some (sectionsOf md ms) := by
  induction ms with
  | nil => rfl
  | cons m rest ih =>
    have hm := hw m (List.mem_cons_self _ _)
    have hrest := ih (fun x hx => hw x (List.mem_cons_of_mem _ hx)) (List.Pairwise.of_cons hp)
    simp only [Loc.within] at hm
    have h1 : sliceChecked md m.m2 m.m3 = some (slice md m.m2 m.m3) :=
      sliceChecked_ok _ _ _ (by omega) (by omega)
    cases rest with
    | nil =>
      have h2 : sliceChecked md m.m1 md.length = some (slice md m.m1 md.length) :=
        sliceChecked_ok _ _ _ (by omega) (le_refl _)
      simp only [sectionsOfChecked, sectionsOf, h1, h2]
    | cons nx rest1 =>
      have hnx := hw nx (by simp)
      have hlt := List.rel_of_pairwise_cons hp (List.mem_cons_self nx rest1)
      simp only [Loc.within] at hnx
      have h2 : sliceChecked md m.m1 nx.m0 = some (slice md m.m1 nx.m0) :=
        sliceChecked_ok _ _ _ (by omega) (by omega)
      simp only [sectionsOfChecked, sectionsOf] at hrest ⊢
      simp only [h1, h2, hrest]

theorem SplitSectionsChecked_ok (md : Text) :
    SplitSectionsChecked md = some (SplitSections md) :=
  sectionsOfChecked_ok md _ (findAll_within md) (findAll_pairwise md)

theorem lineEndFrom_bounds (md : Text) (start : Nat) (h : start ≤ md.length) :
    start ≤ lineEndFrom md start ∧ lineEndFrom md start ≤ md.length := by
  obtain ⟨line, -, l2, l3⟩ := lineEndFrom_spec md start h
  have hd := congrArg List.length (List.take_append_drop start md)
  rw [l2]
  rcases l3 with l3 | ⟨tail, l3⟩ <;>
    simp only [l3, List.length_append, List.length_take, List.length_cons] at hd <;> omega

/-- The matches of two pieces put together, when the first piece ends at a line
start with no match open. -/
theorem findAll_append (a r : Text) (ha : after .bol 0 a = .bol) :
    FindAllStringSubmatchIndex (a ++ r) =
      FindAllStringSubmatchIndex a ++
        (FindAllStringSubmatchIndex r).map (Loc.shift a.length) := by
  rw [findAll_eq_emits a ha]
  unfold FindAllStringSubmatchIndex
  rw [scanFrom_append, ha, Nat.zero_add, scanFrom_bol_shift]

/-- The span that `SavePage` finds for a block `B` with one heading that
stands between the pieces `a` and `c`: it is the block itself. -/
theorem splice_span (a B c : Text) (mB : Loc) (ha : after .bol 0 a = .bol)
    (hB : after .bol 0 B = .bol) (hBm : FindAllStringSubmatchIndex B = [mB])
    (hB0 : mB.m0 = 0) (hc : c = [] ∨ StartsHeading c) :
    startAt (FindAllStringSubmatchIndex (a ++ (B ++ c)))
      (FindAllStringSubmatchIndex a).length = a.length ∧
    endAt (FindAllStringSubmatchIndex (a ++ (B ++ c))) (a ++ (B ++ c)).length
      (FindAllStringSubmatchIndex a).length = a.length + B.length := by
  have hall : FindAllStringSubmatchIndex (a ++ (B ++ c)) =
      FindAllStringSubmatchIndex a ++ (Loc.shift a.length mB ::
        ((FindAllStringSubmatchIndex c).map (Loc.shift B.length)).map (Loc.shift a.length)) := by
    rw [findAll_append a _ ha, findAll_append B c hB, hBm]
    rfl
  have hstart : startAt (FindAllStringSubmatchIndex (a ++ (B ++ c)))
      (FindAllStringSubmatchIndex a).length = a.length := by
    unfold startAt
    rw [hall, getElem?_middle]
    simp [Loc.shift, hB0]
  refine ⟨hstart, ?_⟩
  rcases hc with rfl | hc
  · have hnil : FindAllStringSubmatchIndex ([] : Text) = [] := rfl
    rw [hnil] at hall
    unfold endAt
    rw [hall]
    simp
  · obtain ⟨m, rest, h1, h2⟩ := heading_first c 0 hc
    have hcm : FindAllStringSubmatchIndex c = m :: rest := h1
    rw [hcm] at hall
    have hlt : (FindAllStringSubmatchIndex a).length + 1 <
        (FindAllStringSubmatchIndex (a ++ (B ++ c))).length := by
      rw [hall]
      simp
    have hnext : (FindAllStringSubmatchIndex (a ++ (B ++ c)))[
        (FindAllStringSubmatchIndex a).length + 1]? =
        some (Loc.shift a.length (Loc.shift B.length m)) := by
      rw [hall]
      have e : FindAllStringSubmatchIndex a ++ (Loc.shift a.length mB ::
          ((m :: rest).map (Loc.shift B.length)).map (Loc.shift a.length)) =
          (FindAllStringSubmatchIndex a ++ [Loc.shift a.length mB]) ++
            (Loc.shift a.length (Loc.shift B.length m) ::
              (rest.map (Loc.shift B.length)).map (Loc.shift a.length)) := by
        simp
      have e2 : (FindAllStringSubmatchIndex a).length + 1 =
          (FindAllStringSubmatchIndex a ++ [Loc.shift a.length mB]).length := by
        simp
      rw [e, e2, getElem?_middle]
    unfold endAt startAt
    rw [if_pos hlt, hnext]
    simp only [Loc.shift, h2]
    omega

/-- The text after a successful `SavePage`: the part before the first section
titled `oldTitle`, the new block, and the part from the next heading on. -/
theorem savePage_text (oldTitle newTitle html : Text) (s : Store)
    (before : List Section) (sec : Section) (rest : List Section)
    (h1 : SplitSections (ReadAll s) = before ++ sec :: rest)
    (h2 : ∀ x ∈ before, x.Title ≠ oldTitle) (h3 : sec.Title = oldTitle) :
    ∃ a c, after .bol 0 a = .bol ∧ (c = [] ∨ StartsHeading c) ∧
      SplitSections a = before ∧ SplitSections c = rest ∧
      SavePage oldTitle newTitle html s =
        (.ok (), ⟨some (a ++ ((marker ++ newTitle ++ [LF, LF] ++ html ++ [LF]) ++ c))⟩) := by
  have hft := findTitle_first oldTitle _ before sec rest h1 h2 h3
  have hlen : before.length < (FindAllStringSubmatchIndex (ReadAll s)).length := by
    rw [← SplitSections_length, h1]
    simp
  have hm := List.getElem?_eq_getElem hlen
  obtain ⟨c1, -, c3, -⟩ := cut_sections (ReadAll s) before.length _ hm
  have hne : (SplitSections (ReadAll s)).length ≠ 0 := by
    rw [h1]; simp
  have hbefore : SplitSections
      ((ReadAll s).take (FindAllStringSubmatchIndex (ReadAll s))[before.length].m0) = before := by
    rw [c3, h1]
    simp
  by_cases hlt : before.length + 1 < (FindAllStringSubmatchIndex (ReadAll s)).length
  · have hm1 := List.getElem?_eq_getElem hlt
    obtain ⟨-, d2, -, d4⟩ := cut_sections (ReadAll s) (before.length + 1) _ hm1
    refine ⟨_, _, c1, Or.inr d2, hbefore, ?_, ?_⟩
    · rw [d4, h1]
      simp
    · simp only [SavePage, hne, if_false, hft, startAt, hm, endAt, hlt, if_true, hm1,
        WriteAll, List.append_assoc]
  · refine ⟨_, [], c1, Or.inl rfl, hbefore, ?_, ?_⟩
    · have hl : (SplitSections (ReadAll s)).length = before.length + 1 := by
        rw [SplitSections_length]
        omega
      rw [h1, List.length_append, List.length_cons] at hl
      have : rest.length = 0 := by omega
      rw [List.length_eq_zero.1 this]
      rfl
    · simp only [SavePage, hne, if_false, hft, startAt, hm, endAt, hlt, WriteAll,
        List.append_assoc, List.drop_length, List.append_nil]

theorem after_hash2 (s : Text) (st : Scan) (i p : Nat) (h : after st i s = .hash2 p) :
    (st = .hash2 p ∧ s = []) ∨ (st = .hash1 p ∧ s = ['#']) ∨
    ∃ pre, s = pre ++ ['#', '#'] ∧ after st i pre = .bol := by
  induction s generalizing st i with
  | nil => exact Or.inl ⟨h, rfl⟩
  | cons c cs ih =>
    rw [after] at h
    rcases ih _ _ h with ⟨h1, rfl⟩ | ⟨h1, rfl⟩ | ⟨pre, rfl, h1⟩
    · right; left
      cases st <;> simp only [step] at h1 <;> (split_ifs at h1; all_goals simp_all)
    · right; right
      refine ⟨[], ?_, ?_⟩
      · cases st <;> simp only [step] at h1 <;> (split_ifs at h1; all_goals simp_all)
      · cases st <;> simp only [step] at h1 <;> (split_ifs at h1; all_goals simp_all [after])
    · right; right
      exact ⟨c :: pre, rfl, by rw [after]; exact h1⟩

theorem endsWithBareMarker_of_shape (pre w : Text)
    (hpre : pre = [] ∨ pre.getLast? = some LF) (hw : ∀ c ∈ w, isSpace c = true) :
    endsWithBareMarker (pre ++ '#' :: '#' :: w) = true := by
  have hrev : (pre ++ '#' :: '#' :: w).reverse = w.reverse ++ ('#' :: '#' :: pre.reverse) := by
    simp
  have hdrop : (w.reverse ++ ('#' :: '#' :: pre.reverse)).dropWhile isSpace =
      '#' :: '#' :: pre.reverse := by
    apply dropWhile_run
    · intro c hc
      exact hw c (List.mem_reverse.1 hc)
    · intro c hc
      have : c = '#' := by simpa using hc.symm
      rw [this]
      rfl
  unfold endsWithBareMarker
  rw [hrev, hdrop]
  rcases hpre with rfl | hlast
  · rfl
  · obtain ⟨ys, rfl⟩ := List.getLast?_eq_some_iff.1 hlast
    simp

/-- A text that does not end with a bare `##` marker leaves the search with no
match open, or inside a title. -/
theorem state_of_no_bare_marker (md : Text) (h : endsWithBareMarker md = false) :
    (after .bol 0 md).idle ∨ ∃ p q, after .bol 0 md = .title p q := by
  cases hst : after .bol 0 md with
  | bol => exact Or.inl (Or.inl rfl)
  | mid => exact Or.inl (Or.inr (Or.inl rfl))
  | hash1 p => exact Or.inl (Or.inr (Or.inr ⟨p, rfl⟩))
  | title p q => exact Or.inr ⟨p, q, rfl⟩
  | hash2 p =>
    exfalso
    rcases after_hash2 md .bol 0 p hst with ⟨h1, -⟩ | ⟨h1, -⟩ | ⟨pre, rfl, h1⟩
    · cases h1
    · cases h1
    · have hpre : pre = [] ∨ pre.getLast? = some LF := by
        rcases after_bol_last _ _ _ h1 with ⟨h0, -⟩ | h2
        · exact Or.inl h0
        · exact Or.inr h2
      have := endsWithBareMarker_of_shape pre [] hpre (by simp)
      rw [h] at this
      cases this
  | ws p =>
    exfalso
    have hall : FindAllStringSubmatchIndex md =
        emits .bol 0 md ++ [⟨p, md.length, md.length, md.length⟩] := by
      unfold FindAllStringSubmatchIndex
      rw [scanFrom_eq_emits_flush, hst, Nat.zero_add]
      rfl
    have hj : (FindAllStringSubmatchIndex md)[(emits .bol 0 md).length]? =
        some ⟨p, md.length, md.length, md.length⟩ := by
      rw [hall]
      exact getElem?_middle _ _ _
    obtain ⟨hpre, w, t, rest, hb, -, hw, -, -, -, hempty, hm⟩ := findAll_match_shape md _ _ hj
    have e2 := congrArg Loc.m2 hm
    have e3 := congrArg Loc.m3 hm
    simp only at e2 e3
    have ht : t = [] := List.length_eq_zero.1 (by omega)
    have hr : rest = [] := hempty ht
    rw [ht, hr, List.append_nil, List.append_nil] at hb
    have hmd : md = md.take p ++ '#' :: '#' :: w := by
      conv_lhs => rw [← List.take_append_drop p md]
      rw [hb]
    have := endsWithBareMarker_of_shape (md.take p) w hpre hw
    rw [← hmd, h] at this
    cases this

/-- The matches after two line feeds and a block are appended to a text that
leaves no bare marker open: those of the text, then those of the block. -/
theorem insert_matches (md B : Text)
    (h : (after .bol 0 md).idle ∨ ∃ p q, after .bol 0 md = .title p q) :
    FindAllStringSubmatchIndex (md ++ LF :: LF :: B) =
      FindAllStringSubmatchIndex md ++
        (FindAllStringSubmatchIndex B).map (Loc.shift (md.length + 2)) := by
  have sb : ∀ j, step .bol j LF = (.bol, []) := fun j => idle_step_LF _ _ (Or.inl rfl)
  have hB : scanFrom .bol (md.length + 1 + 1) B =
      (FindAllStringSubmatchIndex B).map (Loc.shift (md.length + 2)) :=
    scanFrom_bol_shift B (md.length + 2)
  unfold FindAllStringSubmatchIndex at hB ⊢
  rw [scanFrom_append, scanFrom_eq_emits_flush md, Nat.zero_add]
  rcases h with h | ⟨p, q, h⟩
  · rw [idle_flush _ _ h, List.append_nil, scanFrom, idle_step_LF _ _ h, List.nil_append,
      scanFrom, sb, List.nil_append, hB]
  · have st : step (.title p q) md.length LF = (.bol, [⟨p, md.length, q, md.length⟩]) := by
      simp [step]
    rw [h, scanFrom, st, scanFrom, sb, List.nil_append, hB]
    simp [flush]

theorem sectionsTo_titles (md : Text) (stop : Nat) (ms : List Loc) :
    (sectionsTo md stop ms).map Section.Title = ms.map (fun m => slice md m.m2 m.m3) := by
  induction ms with
  | nil => rfl
  | cons m rest ih => rw [sectionsTo_cons, List.map_cons, List.map_cons, ih]

/-- All sections but the last are the same when text is added after the last
match, whatever the end of the last content is. -/
theorem sectionsTo_dropLast (md r : Text) (stop1 stop2 : Nat) (ms : List Loc)
    (hw : ∀ m ∈ ms, m.within 0 md.length) :
    (sectionsTo (md ++ r) stop1 ms).dropLast = (sectionsTo md stop2 ms).dropLast := by
  induction ms with
  | nil => rfl
  | cons m rest ih =>
    have ih1 := ih (fun x hx => hw x (List.mem_cons_of_mem _ hx))
    cases rest with
    | nil => rfl
    | cons nx rest1 =>
      have hm := hw m (List.mem_cons_self _ _)
      have hnx := hw nx (by simp)
      simp only [Loc.within] at hm hnx
      have n1 : sectionsTo (md ++ r) stop1 (nx :: rest1) ≠ [] := by
        intro e
        have := congrArg List.length e
        rw [sectionsTo_length] at this
        simp at this
      have n2 : sectionsTo md stop2 (nx :: rest1) ≠ [] := by
        intro e
        have := congrArg List.length e
        rw [sectionsTo_length] at this
        simp at this
      rw [sectionsTo_cons (md ++ r) stop1 m, sectionsTo_cons md stop2 m,
        List.dropLast_cons_of_ne_nil n1, List.dropLast_cons_of_ne_nil n2, ih1]
      simp only [nextStart]
      rw [slice_append_left _ _ _ _ (by omega), slice_append_left _ _ _ _ (by omega)]

theorem single_match (B : Text) (x : Section) (h1 : SplitSections B = [x])
    (h2 : StartsHeading B) :
    ∃ m, FindAllStringSubmatchIndex B = [m] ∧ m.m0 = 0 := by
  obtain ⟨m, rest, hm, h0⟩ := heading_first B 0 h2
  have hm1 : FindAllStringSubmatchIndex B = m :: rest := hm
  have hl := SplitSections_length B
  rw [h1, hm1] at hl
  simp only [List.length_cons, List.length_nil] at hl
  have : rest.length = 0 := by omega
  rw [List.length_eq_zero.1 this] at hm1
  exact ⟨m, hm1, h0⟩

/-- The sections after a block with one heading is appended, behind two line
feeds, to a text that leaves no bare marker open: the titles of the text, then
the section of the block; all sections of the text but the last are the
same. -/
theorem insert_sections (md B : Text) (x : Section)
    (h : (after .bol 0 md).idle ∨ ∃ p q, after .bol 0 md = .title p q)
    (h1 : SplitSections B = [x]) (h2 : StartsHeading B) :
    ∃ A, SplitSections (md ++ LF :: LF :: B) = A ++ [x] ∧
      A.length = (SplitSections md).length ∧
      A.map Section.Title = (SplitSections md).map Section.Title ∧
      A.dropLast = (SplitSections md).dropLast := by
  obtain ⟨mX, hXm, -⟩ := single_match B x h1 h2
  have hall := insert_matches md B h
  rw [hXm] at hall
  have e : md ++ LF :: LF :: B = (md ++ [LF, LF]) ++ B := by simp
  have hp : (md ++ [LF, LF]).length = md.length + 2 := by simp
  have hlast : sectionsTo (md ++ LF :: LF :: B) (md ++ LF :: LF :: B).length
      [Loc.shift (md.length + 2) mX] = [x] := by
    have hs := sectionsTo_shift (md ++ [LF, LF]) B B.length [mX]
    have hl : (md ++ LF :: LF :: B).length = B.length + (md ++ [LF, LF]).length := by
      rw [e, List.length_append]
      omega
    rw [hl, e, ← hp]
    rw [List.map_cons, List.map_nil] at hs
    rw [hs, ← hXm, ← sectionsOf_eq_sectionsTo]
    exact h1
  have hw := findAll_within md
  refine ⟨sectionsTo (md ++ LF :: LF :: B) (Loc.shift (md.length + 2) mX).m0
    (FindAllStringSubmatchIndex md), ?_, ?_, ?_, ?_⟩
  · unfold SplitSections
    rw [hall, sectionsOf_eq_sectionsTo, List.map_cons, List.map_nil, sectionsTo_append, hlast]
  · rw [sectionsTo_length, SplitSections_length]
  · unfold SplitSections
    rw [sectionsTo_titles, sectionsOf_titles]
    apply List.map_congr_left
    intro m hm
    have := hw m hm
    simp only [Loc.within] at this
    exact slice_append_left _ _ _ _ (by omega)
  · unfold SplitSections
    rw [sectionsOf_eq_sectionsTo]
    exact sectionsTo_dropLast md _ _ _ _ hw

theorem hexDigit_inj (a b : Nat) (ha : a < 16) (hb : b < 16) (h : hexDigit a = hexDigit b) :
    a = b := by
  have key : ∀ x y : Fin 16, hexDigit x.val = hexDigit y.val → x = y := by decide
  have := key ⟨a, ha⟩ ⟨b, hb⟩ h
  exact congrArg Fin.val this

/-- The hexadecimal form loses nothing: different bytes give different
digits. -/
theorem EncodeToString_inj (a b : List (Fin 256)) (h : EncodeToString a = EncodeToString b) :
    a = b := by
  induction a generalizing b with
  | nil =>
    cases b with
    | nil => rfl
    | cons u bs =>
      rw [EncodeToString_cons] at h
      cases h
  | cons v as ih =>
    cases b with
    | nil =>
      rw [EncodeToString_cons] at h
      cases h
    | cons u bs =>
      rw [EncodeToString_cons, EncodeToString_cons] at h
      simp only [List.cons.injEq] at h
      obtain ⟨h1, h2, h3⟩ := h
      have hv := v.isLt
      have hu := u.isLt
      have e1 := hexDigit_inj _ _ (by omega) (by omega) h1
      have e2 := hexDigit_inj _ _ (by omega) (by omega) h2
      have e : v = u := Fin.ext (by omega)
      rw [e, ih bs h3]

theorem headingAt_cases (l : Text) (h : markerLine l = false) :
    headingAt l = false ∨ l = ['#', '#'] := by
  unfold headingAt
  unfold markerLine at h
  split <;> simp_all

theorem splitOn_ne_nil (b : Text) : b.splitOn LF ≠ [] := by
  rcases text_cases b with hs | ⟨a, c, rfl, ha⟩
  · rw [splitOn_single b hs]
    simp
  · rw [splitOn_first a c ha]
    simp

/-- A text without a line that begins with `##` and whitespace, and without a
line `##` that a line feed ends, read from a line start: nothing is found and
the end of the text completes no match. -/
theorem run_noMarker (s : Text) (i : Nat) (h : NoMarkerLine s) :
    emits .bol i s = [] ∧ ∀ n, flush (after .bol i s) n = [] := by
  generalize hn : s.length = n
  induction n using Nat.strong_induction_on generalizing s i with
  | _ n ih =>
    rcases text_cases s with hs | ⟨a, b, rfl, ha⟩
    · have hm : markerLine s = false := h.1 s (by rw [splitOn_single s hs]; simp)
      rcases headingAt_cases s hm with hh | rfl
      · obtain ⟨e1, a1⟩ := run_plain_line s i hs hh
        exact ⟨e1, fun n => idle_flush _ n a1⟩
      · simp [emits, after, step, flush]
    · have hsplit := splitOn_first a b ha
      have hma : markerLine a = false := h.1 a (by rw [hsplit]; simp)
      have hna : a ≠ ['#', '#'] := h.2 a (by
        rw [hsplit, List.dropLast_cons_of_ne_nil (splitOn_ne_nil b)]
        simp)
      have hha : headingAt a = false := (headingAt_cases a hma).resolve_right hna
      have hb : NoMarkerLine b :=
        ⟨fun l hl => h.1 l (by rw [hsplit]; simp [hl]),
         fun l hl => h.2 l (by
          rw [hsplit, List.dropLast_cons_of_ne_nil (splitOn_ne_nil b)]
          simp [hl])⟩
      obtain ⟨e1, a1⟩ := run_plain_line a i ha hha
      have hlen : b.length < n := by
        rw [← hn, List.length_append, List.length_cons]
        omega
      obtain ⟨e2, a2⟩ := ih b.length hlen b (i + a.length + 1) hb rfl
      have hE : emits .bol i (a ++ LF :: b) = emits .bol (i + a.length + 1) b := by
        rw [emits_append, e1, List.nil_append, emits, idle_step_LF _ _ a1, List.nil_append]
      have hA : after .bol i (a ++ LF :: b) = after .bol (i + a.length + 1) b := by
        rw [after_append, after, idle_step_LF _ _ a1]
      rw [hE, hA]
      exact ⟨e2, a2⟩

theorem noMarker_sections (md : Text) (h : NoMarkerLine md) : SplitSections md = [] := by
  obtain ⟨e1, a1⟩ := run_noMarker md 0 h
  unfold SplitSections FindAllStringSubmatchIndex
  rw [scanFrom_eq_emits_flush, e1, a1]
  rfl

/-! ## The claims -/

/-- Claim C1. When the notebook has a section titled `oldTitle`, `SavePage`
succeeds and the new text is `md[0:start] ++ "## " ++ newTitle ++ "\n\n" ++
html ++ "\n" ++ md[stop:]`, where `start` is the heading start of the first
section with that title and `stop` the start of the next heading, or the length
of the text when there is none; the first `start` characters of the new text
and everything after the new block are those of the old text. -/
theorem SavePage_replaces_span (oldTitle newTitle html : Text) (s : Store)
    (h : ∃ sec ∈ SplitSections (ReadAll s), sec.Title = oldTitle) :
    ∃ before sec rest m stop,
      SplitSections (ReadAll s) = before ++ sec :: rest ∧
      (∀ x ∈ before, x.Title ≠ oldTitle) ∧ sec.Title = oldTitle ∧
      (FindAllStringSubmatchIndex (ReadAll s))[before.length]? = some m ∧
      stop = (match (FindAllStringSubmatchIndex (ReadAll s))[before.length + 1]? with
        | some nx => nx.m0
        | none => (ReadAll s).length) ∧
      m.m0 ≤ stop ∧ stop ≤ (ReadAll s).length ∧
      SavePage oldTitle newTitle html s =
        (.ok (), ⟨some ((ReadAll s).take m.m0 ++
          (['#', '#', ' '] ++ newTitle ++ [LF, LF] ++ html ++ [LF]) ++ (ReadAll s).drop stop)⟩) ∧
      (ReadAll (SavePage oldTitle newTitle html s).2).take m.m0 = (ReadAll s).take m.m0 ∧
      (ReadAll (SavePage oldTitle newTitle html s).2).drop
        (m.m0 + (3 + newTitle.length + 2 + html.length + 1)) = (ReadAll s).drop stop := by
  obtain ⟨sec0, hsec0, ht0⟩ := h
  rcases findTitle_cases oldTitle (SplitSections (ReadAll s)) 0 with ⟨-, hno⟩ | ⟨before, sec, rest, h1, h2, h3, h4⟩
  · exact absurd ht0 (hno sec0 hsec0)
  · have hlen : before.length < (FindAllStringSubmatchIndex (ReadAll s)).length := by
      rw [← SplitSections_length, h1]
      simp
    have hm : (FindAllStringSubmatchIndex (ReadAll s))[before.length]? =
        some ((FindAllStringSubmatchIndex (ReadAll s))[before.length]) :=
      List.getElem?_eq_getElem hlen
    obtain ⟨b1, b2, b3⟩ := span_bounds (ReadAll s) before.length _ hm
    have hne : (SplitSections (ReadAll s)).length ≠ 0 := by
      rw [h1]; simp
    have hsave : SavePage oldTitle newTitle html s =
        (.ok (), ⟨some ((ReadAll s).take (FindAllStringSubmatchIndex (ReadAll s))[before.length].m0 ++
          (['#', '#', ' '] ++ newTitle ++ [LF, LF] ++ html ++ [LF]) ++
          (ReadAll s).drop (match (FindAllStringSubmatchIndex (ReadAll s))[before.length + 1]? with
            | some nx => nx.m0
            | none => (ReadAll s).length))⟩) := by
      simp only [SavePage, hne, if_false, h4, Nat.zero_add, startAt, hm, endAt, WriteAll, marker]
      split_ifs with hlt
      · rw [List.getElem?_eq_getElem hlt]
      · rw [List.getElem?_eq_none (by omega)]
    refine ⟨before, sec, rest, _, _, h1, h2, h3, hm, rfl, by omega, b3, hsave, ?_, ?_⟩
    · rw [hsave]
      show List.take _ (_ ++ _ ++ _) = _
      rw [List.append_assoc, List.take_left']
      simp only [List.length_take]
      omega
    · rw [hsave]
      show List.drop _ (_ ++ _ ++ _) = _
      rw [List.drop_left']
      simp only [List.length_append, List.length_take, List.length_cons, List.length_nil]
      omega

theorem SavePage_replaces_span_witness :
    (∃ sec ∈ SplitSections (ReadAll demoStore), sec.Title = ['B']) ∧
    ∃ (m : Loc) (stop : Nat), SavePage ['B'] ['B', '2'] ['x'] demoStore =
      (.ok (), ⟨some ((ReadAll demoStore).take m.m0 ++
        (['#', '#', ' '] ++ ['B', '2'] ++ [LF, LF] ++ ['x'] ++ [LF]) ++
        (ReadAll demoStore).drop stop)⟩) := by
  have h : ∃ sec ∈ SplitSections (ReadAll demoStore), sec.Title = ['B'] :=
    ⟨⟨['B'], "\n\n<p>b</p>\n".toList⟩, by decide, rfl⟩
  obtain ⟨_, _, _, m, stop, _, _, _, _, _, _, _, h8, _⟩ :=
    SavePage_replaces_span ['B'] ['B', '2'] ['x'] demoStore h
  exact ⟨h, m, stop, h8⟩

/-- Claim C2. `SavePageIfMatch` fails with the ETag mismatch and leaves the
store as it is exactly when the expected ETag is not empty and differs from the
ETag of the notebook; in every other case it is `SavePage`, which never
reports an ETag mismatch itself. -/
theorem SavePageIfMatch_gate (Sum256 : Text → Digest)
    (oldTitle newTitle html expectedETag : Text) (s : Store) :
    ∃ etag, ComputeETag Sum256 s = (.ok etag, s) ∧
      SavePageIfMatch Sum256 oldTitle newTitle html expectedETag s =
        (if expectedETag ≠ [] ∧ etag ≠ expectedETag
          then (.error .etagMismatch, s)
          else SavePage oldTitle newTitle html s) ∧
      (SavePage oldTitle newTitle html s).1 ≠ .error .etagMismatch := by
  refine ⟨EncodeToString (List.ofFn (Sum256 (ReadAll s))), rfl, ?_, ?_⟩
  · simp only [SavePageIfMatch, ComputeETag]
    by_cases he : expectedETag = []
    · simp [he]
    · by_cases hx : EncodeToString (List.ofFn (Sum256 (ReadAll s))) = expectedETag
      · rw [if_pos he, if_neg (not_not.2 hx), if_neg (by tauto)]
      · rw [if_pos he, if_pos hx, if_pos ⟨he, hx⟩]
  · unfold SavePage
    simp only
    split_ifs
    · simp
    · split <;> simp

/-- Claim C3. `SavePage` fails with `no sections` exactly when the notebook has
no section, with `section not found` exactly when it has sections but none
titled `oldTitle`, and succeeds exactly when some section has that title; when
it fails the store is unchanged. -/
theorem SavePage_errors (oldTitle newTitle html : Text) (s : Store) :
    ((SavePage oldTitle newTitle html s).1 = .error .noSections ↔
      SplitSections (ReadAll s) = []) ∧
    ((SavePage oldTitle newTitle html s).1 = .error .sectionNotFound ↔
      SplitSections (ReadAll s) ≠ [] ∧ ∀ x ∈ SplitSections (ReadAll s), x.Title ≠ oldTitle) ∧
    ((SavePage oldTitle newTitle html s).1 = .ok () ↔
      ∃ x ∈ SplitSections (ReadAll s), x.Title = oldTitle) ∧
    ((SavePage oldTitle newTitle html s).1 = .ok () ∨
      (SavePage oldTitle newTitle html s).2 = s) := by
  by_cases h0 : SplitSections (ReadAll s) = []
  · have hr : SavePage oldTitle newTitle html s = (.error .noSections, s) := by
      simp [SavePage, h0]
    rw [hr]
    simp [h0]
  · have hne : (SplitSections (ReadAll s)).length ≠ 0 := by
      simpa using h0
    rcases findTitle_cases oldTitle (SplitSections (ReadAll s)) 0 with
      ⟨h1, h2⟩ | ⟨before, sec, rest, h1, h2, h3, h4⟩
    · have hno : ¬ ∃ x ∈ SplitSections (ReadAll s), x.Title = oldTitle := by
        rintro ⟨x, hx, hxt⟩
        exact h2 x hx hxt
      have hr : SavePage oldTitle newTitle html s = (.error .sectionNotFound, s) := by
        simp only [SavePage, hne, if_false, h1]
      rw [hr]
      refine ⟨by simp [h0], by simp only [true_iff]; exact ⟨h0, h2⟩, by simp [hno], Or.inr rfl⟩
    · have hyes : ∃ x ∈ SplitSections (ReadAll s), x.Title = oldTitle :=
        ⟨sec, by rw [h1]; simp, h3⟩
      have hnall : ¬ ∀ x ∈ SplitSections (ReadAll s), x.Title ≠ oldTitle := by
        intro hall
        obtain ⟨x, hx, hxt⟩ := hyes
        exact hall x hx hxt
      have hr : (SavePage oldTitle newTitle html s).1 = .ok () := by
        simp only [SavePage, hne, if_false, h4]
      rw [hr]
      refine ⟨by simp [h0], ?_, by simp only [true_iff]; exact hyes, Or.inl rfl⟩
      constructor
      · intro h; cases h
      · intro h; exact absurd h.2 hnall

/-- Claim C7. `LoadPage` leaves the store as it is; it fails with `not found`
when no section has the title, and otherwise returns the content of the first
section, in the order of the notebook, that has it. -/
theorem LoadPage_first_match (title : Text) (s : Store) :
    (LoadPage title s).2 = s ∧
    (((∀ x ∈ SplitSections (ReadAll s), x.Title ≠ title) ∧
        (LoadPage title s).1 = .error .notFound) ∨
      ∃ before sec rest, SplitSections (ReadAll s) = before ++ sec :: rest ∧
        (∀ x ∈ before, x.Title ≠ title) ∧ sec.Title = title ∧
        (LoadPage title s).1 = .ok sec.Content) := by
  rcases lookupContent_cases title (SplitSections (ReadAll s)) with
    ⟨h1, h2⟩ | ⟨before, sec, rest, h1, h2, h3, h4⟩
  · exact ⟨by simp [LoadPage, h1], Or.inl ⟨h2, by simp [LoadPage, h1]⟩⟩
  · exact ⟨by simp [LoadPage, h4], Or.inr ⟨before, sec, rest, h1, h2, h3, by simp [LoadPage, h4]⟩⟩

/-- Claim C8. `RenameSection` fails with `section not found`, the store
unchanged, when no section is titled `oldTitle`; otherwise the new text is
`md[0:start] ++ "## " ++ newTitle ++ md[lineEnd:]`, where `start` is the
heading start of the first section with that title and `lineEnd` the offset of
the first line feed at or after `start`, or the length of the text when there
is none: the text before `start` and the text from the line feed on are kept. -/
theorem RenameSection_rewrites_heading (oldTitle newTitle : Text) (s : Store) :
    ((∀ x ∈ SplitSections (ReadAll s), x.Title ≠ oldTitle) ∧
      RenameSection oldTitle newTitle s = (.error .sectionNotFound, s)) ∨
    ∃ before sec rest m line,
      SplitSections (ReadAll s) = before ++ sec :: rest ∧
      (∀ x ∈ before, x.Title ≠ oldTitle) ∧ sec.Title = oldTitle ∧
      (FindAllStringSubmatchIndex (ReadAll s))[before.length]? = some m ∧
      LF ∉ line ∧
      ((ReadAll s).drop m.m0 = line ∨ ∃ tail, (ReadAll s).drop m.m0 = line ++ LF :: tail) ∧
      m.m0 + line.length ≤ (ReadAll s).length ∧
      RenameSection oldTitle newTitle s =
        (.ok (), ⟨some ((ReadAll s).take m.m0 ++ (['#', '#', ' '] ++ newTitle) ++
          (ReadAll s).drop (m.m0 + line.length))⟩) ∧
      (ReadAll (RenameSection oldTitle newTitle s).2).take m.m0 = (ReadAll s).take m.m0 ∧
      (ReadAll (RenameSection oldTitle newTitle s).2).drop (m.m0 + (3 + newTitle.length)) =
        (ReadAll s).drop (m.m0 + line.length) := by
  rcases findTitle_cases oldTitle (SplitSections (ReadAll s)) 0 with
    ⟨h1, h2⟩ | ⟨before, sec, rest, h1, h2, h3, h4⟩
  · left
    exact ⟨h2, by simp [RenameSection, h1]⟩
  · right
    have hlen : before.length < (FindAllStringSubmatchIndex (ReadAll s)).length := by
      rw [← SplitSections_length, h1]
      simp
    have hm : (FindAllStringSubmatchIndex (ReadAll s))[before.length]? =
        some ((FindAllStringSubmatchIndex (ReadAll s))[before.length]) :=
      List.getElem?_eq_getElem hlen
    obtain ⟨b1, b2, b3⟩ := span_bounds (ReadAll s) before.length _ hm
    have hstart : (FindAllStringSubmatchIndex (ReadAll s))[before.length].m0 ≤
        (ReadAll s).length := by omega
    obtain ⟨line, l1, l2, l3⟩ := lineEndFrom_spec (ReadAll s) _ hstart
    have hle : (FindAllStringSubmatchIndex (ReadAll s))[before.length].m0 + line.length ≤
        (ReadAll s).length := by
      have hd := congrArg List.length
        (List.take_append_drop (FindAllStringSubmatchIndex (ReadAll s))[before.length].m0
          (ReadAll s))
      rcases l3 with l3 | ⟨tail, l3⟩ <;>
        simp only [l3, List.length_append, List.length_take, List.length_cons] at hd <;> omega
    have hren : RenameSection oldTitle newTitle s =
        (.ok (), ⟨some ((ReadAll s).take (FindAllStringSubmatchIndex (ReadAll s))[before.length].m0 ++
          (['#', '#', ' '] ++ newTitle) ++
          (ReadAll s).drop ((FindAllStringSubmatchIndex (ReadAll s))[before.length].m0 +
            line.length))⟩) := by
      simp only [RenameSection, h4, Nat.zero_add, startAt, hm, WriteAll, marker, l2]
    refine ⟨before, sec, rest, _, line, h1, h2, h3, hm, l1, l3, hle, hren, ?_, ?_⟩
    · rw [hren]
      show List.take _ (_ ++ _ ++ _) = _
      rw [List.append_assoc, List.take_left']
      simp only [List.length_take]
      omega
    · rw [hren]
      show List.drop _ (_ ++ _ ++ _) = _
      rw [List.drop_left']
      simp only [List.length_append, List.length_take, List.length_cons, List.length_nil]
      omega

/-- Claim C10. For a notebook made of a preamble and of blocks `"## " ++ t ++
"\n" ++ c`, where every title `t` is not empty, has no line feed and does not
begin with whitespace, and the preamble and every `c` are empty or end with a
line feed and have no line that starts with `##` followed by whitespace or the
end of the line, `ListPages` returns the titles of the blocks in order,
duplicates kept. -/
theorem ListPages_of_blocks (pre : Text) (blocks : List (Text × Text)) (s : Store)
    (hs : ReadAll s = buildDoc pre blocks) (hpre : QuietText pre)
    (hb : ∀ b ∈ blocks, WellFormedTitle b.1 ∧ QuietText b.2) :
    ListPages s = (.ok (blocks.map Prod.fst), s) := by
  obtain ⟨p1, p2⟩ := quiet_sections pre hpre
  obtain ⟨b1, b2⟩ := blocks_sections blocks hb
  unfold ListPages
  rw [hs, buildDoc, SplitSections_append _ _ p2 b2, p1, b1, List.nil_append, List.map_map]
  rfl

theorem ListPages_of_blocks_witness :
    ListPages ⟨some "# N\n\n## First\n\n<p>one</p>\n## First\n".toList⟩ =
      (.ok ["First".toList, "First".toList],
        ⟨some "# N\n\n## First\n\n<p>one</p>\n## First\n".toList⟩) :=
  ListPages_of_blocks "# N\n\n".toList
    [("First".toList, "\n<p>one</p>\n".toList), ("First".toList, [])] _
    (by decide) (by decide) (by decide)

/-- Claim C6, as stated, fails. In the text `"## A\nx"` the heading line ends
with the line feed at offset 4 and the text immediately after it is `"x"`, but
the content of the section is `"\nx"`: it begins at the line feed. -/
theorem content_after_terminator_counterexample :
    FindAllStringSubmatchIndex "## A\nx".toList = [⟨0, 4, 3, 4⟩] ∧
    ("## A\nx".toList)[4]? = some LF ∧
    slice "## A\nx".toList (4 + 1) 6 = "x".toList ∧
    SplitSections "## A\nx".toList = [⟨"A".toList, "\nx".toList⟩] ∧
    (⟨"A".toList, "\nx".toList⟩ : Section).Content ≠ "x".toList := by
  decide

/-- Claim C6, amended. The content of the `i`-th section is the text from the
end of its title, the line feed that ends the heading included, to the start
of the next heading, or to the end of the text for the last section: it is
empty or begins with that line feed. -/
theorem content_span (md : Text) (i : Nat) (m : Loc)
    (h : (FindAllStringSubmatchIndex md)[i]? = some m) :
    ∃ sec stop, (SplitSections md)[i]? = some sec ∧
      stop = (match (FindAllStringSubmatchIndex md)[i + 1]? with
        | some nx => nx.m0
        | none => md.length) ∧
      sec.Title = slice md m.m2 m.m3 ∧ m.m3 = m.m1 ∧
      sec.Content = slice md m.m1 stop ∧ m.m1 ≤ stop ∧ stop ≤ md.length ∧
      (m.m1 = md.length ∨ md[m.m1]? = some LF) ∧
      (sec.Content = [] ∨ sec.Content.head? = some LF) := by
  obtain ⟨b1, b2, b3⟩ := span_bounds md i m h
  have hw := findAll_within md m (List.getElem?_mem h)
  have hend : m.m1 = md.length ∨ md[m.m1]? = some LF := by
    rcases scanFrom_end md .bol 0 m (List.getElem?_mem h) with h1 | ⟨k, h1, h2⟩
    · left
      omega
    · right
      rw [h1, Nat.zero_add]
      exact h2
  refine ⟨_, _, sectionsOf_getElem? md _ i m h, rfl, rfl, hw.2.2.2.1, rfl, b2, b3, hend, ?_⟩
  rcases hend with h1 | h1
  · left
    simp only [slice]
    rw [List.drop_eq_nil_of_le (by omega), List.take_nil]
  · by_cases hlt : m.m1 < (match (FindAllStringSubmatchIndex md)[i + 1]? with
        | some nx => nx.m0
        | none => md.length)
    · right
      obtain ⟨hl, hg⟩ := List.getElem?_eq_some.1 h1
      simp only [slice]
      rw [List.head?_take, if_neg (by omega), List.head?_drop, h1]
    · left
      simp only [slice]
      have e : (match (FindAllStringSubmatchIndex md)[i + 1]? with
        | some nx => nx.m0
        | none => md.length) - m.m1 = 0 := by omega
      rw [e, List.take_zero]

theorem content_span_witness :
    (FindAllStringSubmatchIndex demoDoc)[1]? = some ⟨27, 31, 30, 31⟩ ∧
    ∃ sec stop, (SplitSections demoDoc)[1]? = some sec ∧
      sec.Content = slice demoDoc 31 stop ∧
      (sec.Content = [] ∨ sec.Content.head? = some LF) := by
  have h : (FindAllStringSubmatchIndex demoDoc)[1]? = some ⟨27, 31, 30, 31⟩ := by decide
  obtain ⟨sec, stop, h1, -, -, -, h5, -, -, -, h9⟩ := content_span demoDoc 1 ⟨27, 31, 30, 31⟩ h
  exact ⟨h, sec, stop, h1, h5, h9⟩

/-- Claim C4, as stated, fails. The notebook `demoDoc` has the sections `A`,
`B`, `C`; saving `B` as `B2` with the body `## X` leaves four sections, `A`,
`B2`, `X`, `C`: the body is not checked for heading lines. -/
theorem SavePage_middle_counterexample :
    (SplitSections (ReadAll demoStore)).map Section.Title =
      ["A".toList, "B".toList, "C".toList] ∧
    (SplitSections (ReadAll (SavePage "B".toList "B2".toList "## X".toList demoStore).2)).map
      Section.Title = ["A".toList, "B2".toList, "X".toList, "C".toList] ∧
    (SplitSections (ReadAll (SavePage "B".toList "B2".toList "## X".toList demoStore).2)).map
      Section.Title ≠ ["A".toList, "B2".toList, "C".toList] := by
  decide

/-- Claim C4, amended. When the sections of the notebook are titled `A`, `B`,
`C` in that order with `A` different from `B`, the new title `B2` is not empty,
has no line feed and does not begin with whitespace, and no line of `html`
starts with `##` followed by whitespace or the end of the line, then
`SavePage B B2 html` succeeds, the preamble and the sections `A` and `C` are
what they were, and the sections are titled `A`, `B2`, `C`. -/
theorem SavePage_middle (A B C B2 html : Text) (s : Store)
    (hT : (SplitSections (ReadAll s)).map Section.Title = [A, B, C]) (hAB : A ≠ B)
    (hB2 : WellFormedTitle B2) (hh : NoHeadingLine html) :
    ∃ secA secB secC, SplitSections (ReadAll s) = [secA, secB, secC] ∧
      (SavePage B B2 html s).1 = .ok () ∧
      SplitSections (ReadAll (SavePage B B2 html s).2) =
        [secA, ⟨B2, [LF, LF] ++ html ++ [LF]⟩, secC] ∧
      (SplitSections (ReadAll (SavePage B B2 html s).2)).map Section.Title = [A, B2, C] ∧
      preamble (ReadAll (SavePage B B2 html s).2) = preamble (ReadAll s) := by
  match hsec : SplitSections (ReadAll s), hT with
  | [secA, secB, secC], hT =>
    simp only [List.map_cons, List.map_nil, List.cons.injEq, and_true] at hT
    obtain ⟨tA, tB, tC⟩ := hT
    have h2 : ∀ x ∈ [secA], x.Title ≠ B := by
      intro x hx
      rw [List.mem_singleton.1 hx, tA]
      exact hAB
    obtain ⟨r1, r2, r3⟩ := savePage_sections B B2 html s [secA] secB [secC] hsec h2 tB hB2 hh
    refine ⟨secA, secB, secC, rfl, r1, r2, ?_, r3⟩
    rw [r2]
    simp [tA, tC]

theorem SavePage_middle_witness :
    (SplitSections (ReadAll (SavePage "B".toList "B2".toList "<p>x</p>".toList demoStore).2)).map
      Section.Title = ["A".toList, "B2".toList, "C".toList] := by
  obtain ⟨_, _, _, _, _, _, h, _⟩ := SavePage_middle "A".toList "B".toList "C".toList
    "B2".toList "<p>x</p>".toList demoStore (by decide) (by decide) (by decide) (by decide)
  exact h

/-- Claim C9, as stated, fails. Renaming the section `B` of `demoDoc` to a
title that holds a line feed and a heading line leaves four sections instead
of three; and in the text `"##\nA\nx\n"`, whose title `A` stands on the line
after its marker, renaming `A` to `B` changes the content of the section from
`"\nx\n"` to `"\nA\nx\n"`. -/
theorem RenameSection_sections_counterexample :
    (SplitSections (ReadAll demoStore)).length = 3 ∧
    (SplitSections (ReadAll (RenameSection "B".toList "B2\n## X".toList demoStore).2)).length
      = 4 ∧
    SplitSections (ReadAll ⟨some "##\nA\nx\n".toList⟩) = [⟨"A".toList, "\nx\n".toList⟩] ∧
    SplitSections (ReadAll (RenameSection "A".toList "B".toList
      ⟨some "##\nA\nx\n".toList⟩).2) = [⟨"B".toList, "\nA\nx\n".toList⟩] := by
  decide

/-- Claim C9, amended. When the first section titled `oldTitle` has its title on
the line of its `##` marker (no line feed between the marker and the title) and
the new title is not empty, has no line feed and does not begin with
whitespace, `RenameSection` succeeds, the number of sections is the same, that
section has the new title and the content it had, and every other section is
unchanged. -/
theorem RenameSection_keeps_sections (oldTitle newTitle : Text) (s : Store)
    (before : List Section) (sec : Section) (rest : List Section) (m : Loc)
    (h1 : SplitSections (ReadAll s) = before ++ sec :: rest)
    (h2 : ∀ x ∈ before, x.Title ≠ oldTitle) (h3 : sec.Title = oldTitle)
    (hm : (FindAllStringSubmatchIndex (ReadAll s))[before.length]? = some m)
    (hline : LF ∉ slice (ReadAll s) m.m0 m.m2) (hn : WellFormedTitle newTitle) :
    (RenameSection oldTitle newTitle s).1 = .ok () ∧
    SplitSections (ReadAll (RenameSection oldTitle newTitle s).2) =
      before ++ ⟨newTitle, sec.Content⟩ :: rest ∧
    (SplitSections (ReadAll (RenameSection oldTitle newTitle s).2)).length =
      (SplitSections (ReadAll s)).length := by
  obtain ⟨r1, r2, -⟩ :=
    renameSection_sections oldTitle newTitle s before sec rest m h1 h2 h3 hm hline hn
  refine ⟨r1, r2, ?_⟩
  rw [r2, h1]
  simp

theorem RenameSection_keeps_sections_witness :
    SplitSections (ReadAll (RenameSection "B".toList "B2".toList demoStore).2) =
      [⟨"A".toList, "\n\n<p>a</p>\n".toList⟩] ++
        ⟨"B2".toList, "\n\n<p>b</p>\n".toList⟩ :: [⟨"C".toList, "\n\n<p>c</p>\n".toList⟩] :=
  (RenameSection_keeps_sections "B".toList "B2".toList demoStore
    [⟨"A".toList, "\n\n<p>a</p>\n".toList⟩] ⟨"B".toList, "\n\n<p>b</p>\n".toList⟩
    [⟨"C".toList, "\n\n<p>c</p>\n".toList⟩] ⟨27, 31, 30, 31⟩
    (by decide) (by decide) (by decide) (by decide) (by decide) (by decide)).2.1

/-- Claim C5, as stated, fails. The line `##`, tab, `A` has no space after the
marker and still starts a section; in `##  A` the second space is not part of
the title; and in `"## \n## B\n"` the whitespace after the first marker runs
over the line feed, so that the two heading lines give one section, titled
`## B`. -/
theorem split_one_space_counterexample :
    (SplitSections "##\tA\n".toList).map Section.Title = ["A".toList] ∧
    specTitles "##\tA\n".toList = [] ∧
    (SplitSections "##  A\n".toList).map Section.Title = ["A".toList] ∧
    specTitles "##  A\n".toList = [" A".toList] ∧
    (SplitSections "## \n## B\n".toList).map Section.Title = ["## B".toList] ∧
    specTitles "## \n## B\n".toList = [[], "B".toList] := by
  decide

/-- Claim C5, amended. In a text none of whose lines is `##` followed by
whitespace only, `SplitSections` returns one section for each line that
begins, at a line start, with `##` and one or more whitespace characters, in
the order of the lines; its title is what follows that whitespace on the line,
up to the line feed, nothing trimmed at the end; other lines start no
section. -/
theorem split_titles_by_line (md : Text)
    (h : ∀ l ∈ md.splitOn LF, bareMarker l = false) :
    (SplitSections md).map Section.Title = (md.splitOn LF).filterMap headingTitle := by
  show titlesOf md = lineTitles md
  generalize hn : md.length = n
  induction n using Nat.strong_induction_on generalizing md with
  | _ n ih =>
    rcases text_cases md with hs | ⟨a, b, rfl, ha⟩
    · have hb : bareMarker md = false := h md (by rw [splitOn_single md hs]; simp)
      obtain ⟨-, -, t3⟩ := line_titles md hs hb
      rw [t3]
      unfold lineTitles
      rw [splitOn_single md hs]
      cases hT : headingTitle md <;> simp [List.filterMap_cons, hT]
    · have hsplit := splitOn_first a b ha
      have hba : bareMarker a = false := h a (by rw [hsplit]; simp)
      have hbb : ∀ l ∈ b.splitOn LF, bareMarker l = false :=
        fun l hl => h l (by rw [hsplit]; simp [hl])
      have hlen : b.length < n := by
        rw [← hn, List.length_append, List.length_cons]
        omega
      have ihb := ih b.length hlen b hbb rfl
      obtain ⟨t1, t2, -⟩ := line_titles a ha hba
      have e : a ++ LF :: b = (a ++ [LF]) ++ b := by simp
      rw [e, titlesOf_append _ _ t2, t1, ihb]
      unfold lineTitles
      rw [← e, hsplit]
      cases hT : headingTitle a <;> simp [List.filterMap_cons, hT, lineTitles]

theorem split_titles_by_line_witness :
    (SplitSections "# N\n\n##  A \n##\tB\nx\n".toList).map Section.Title =
      ["A ".toList, "B".toList] :=
  (split_titles_by_line "# N\n\n##  A \n##\tB\nx\n".toList (by decide)).trans (by decide)

/-- Claim C11, as stated, fails. On the never-written notebook, inserting the
title ` A` (with a leading space) gives the page `A`, inserting a title that
holds a line feed and a heading line gives two pages, and inserting the empty
title gives a page named after the placeholder body. -/
theorem InsertNewSection_empty_counterexample :
    ListPages (InsertNewSection " A".toList ⟨none⟩).2 =
      (.ok ["A".toList], (InsertNewSection " A".toList ⟨none⟩).2) ∧
    ListPages (InsertNewSection "A\n## B".toList ⟨none⟩).2 =
      (.ok ["A".toList, "B".toList], (InsertNewSection "A\n## B".toList ⟨none⟩).2) ∧
    ListPages (InsertNewSection [] ⟨none⟩).2 =
      (.ok ["<p><em>New page.</em></p>".toList], (InsertNewSection [] ⟨none⟩).2) := by
  simp only [ListPages, Prod.mk.injEq, Except.ok.injEq, and_true]
  decide

/-- Claim C11, amended. On an empty or never-written notebook, inserting a
title that is not empty, has no line feed and does not begin with whitespace
succeeds; the new text is the title line `# Notebook`, blank lines, and the new
section; `ListPages` then returns exactly that title, and the preamble is the
synthesized title line with its blank lines. -/
theorem InsertNewSection_empty (X : Text) (s : Store) (hs : ReadAll s = [])
    (hX : WellFormedTitle X) :
    (InsertNewSection X s).1 = .ok () ∧
    ReadAll (InsertNewSection X s).2 =
      "# Notebook\n\n\n\n".toList ++ (['#', '#', ' '] ++ X ++ [LF, LF] ++
        "<p><em>New page.</em></p>".toList ++ [LF]) ∧
    ListPages (InsertNewSection X s).2 = (.ok [X], (InsertNewSection X s).2) ∧
    preamble (ReadAll (InsertNewSection X s).2) = "# Notebook\n\n\n\n".toList := by
  have hq : QuietText "# Notebook\n\n\n\n".toList := by decide
  have hb : NoHeadingLine newPageBody := by decide
  obtain ⟨p1, p2⟩ := quiet_sections _ hq
  obtain ⟨x1, x2, x3⟩ := saved_block X newPageBody hX hb
  have hdoc : InsertNewSection X s = (.ok (), ⟨some ("# Notebook\n\n\n\n".toList ++
      (marker ++ X ++ [LF, LF] ++ newPageBody ++ [LF]))⟩) := by
    have e : "# Notebook".toList ++ [LF, LF] ++
        ([LF, LF] ++ marker ++ X ++ [LF, LF] ++ newPageBody ++ [LF]) =
        "# Notebook\n\n\n\n".toList ++ (marker ++ X ++ [LF, LF] ++ newPageBody ++ [LF]) := by
      simp [LF]
    simp only [InsertNewSection, hs, List.length_nil, gt_iff_lt, lt_self_iff_false, if_false,
      WriteAll, e]
  rw [hdoc]
  refine ⟨rfl, rfl, ?_, ?_⟩
  · show ListPages ⟨some _⟩ = _
    unfold ListPages
    show (Except.ok ((SplitSections (_ ++ _)).map Section.Title), _) = _
    rw [SplitSections_append _ _ p2 (Or.inr x3), p1, x1]
    rfl
  · show preamble (_ ++ _) = _
    rw [preamble_append _ _ p2 x3]
    decide

theorem InsertNewSection_empty_witness :
    ListPages (InsertNewSection "X".toList ⟨none⟩).2 =
      (.ok ["X".toList], (InsertNewSection "X".toList ⟨none⟩).2) :=
  (InsertNewSection_empty "X".toList ⟨none⟩ rfl (by decide)).2.2.1

/-- Claim C13. `SavePage` and `RenameSection` keep the preamble, the text
before the first heading as `SplitSections` finds it, whatever the new title
and the body are: a successful call puts a `##` heading where a heading
stood, and a failed call writes nothing. -/
theorem preamble_preserved (oldTitle newTitle html : Text) (s : Store) :
    preamble (ReadAll (SavePage oldTitle newTitle html s).2) = preamble (ReadAll s) ∧
    preamble (ReadAll (RenameSection oldTitle newTitle s).2) = preamble (ReadAll s) := by
  rcases findTitle_cases oldTitle (SplitSections (ReadAll s)) 0 with
    ⟨h1, -⟩ | ⟨before, sec, rest, h1, -, -, h4⟩
  · constructor
    · unfold SavePage
      simp only [h1]
      split_ifs <;> rfl
    · unfold RenameSection
      simp only [h1]
  · have hlen : before.length < (FindAllStringSubmatchIndex (ReadAll s)).length := by
      rw [← SplitSections_length, h1]
      simp
    have hm := List.getElem?_eq_getElem hlen
    have hne : (SplitSections (ReadAll s)).length ≠ 0 := by
      rw [h1]; simp
    rw [Nat.zero_add] at h4
    constructor
    · have hsave : SavePage oldTitle newTitle html s = (.ok (), ⟨some
          ((ReadAll s).take (FindAllStringSubmatchIndex (ReadAll s))[before.length].m0 ++
            (marker ++ (newTitle ++ ([LF, LF] ++ (html ++ ([LF] ++
              (ReadAll s).drop (endAt (FindAllStringSubmatchIndex (ReadAll s))
                (ReadAll s).length before.length)))))))⟩) := by
        simp only [SavePage, hne, if_false, h4, startAt, hm, WriteAll, List.append_assoc]
      rw [hsave]
      exact splice_preamble _ _ _ _ hm
    · have hren : RenameSection oldTitle newTitle s = (.ok (), ⟨some
          ((ReadAll s).take (FindAllStringSubmatchIndex (ReadAll s))[before.length].m0 ++
            (marker ++ (newTitle ++
              (ReadAll s).drop (lineEndFrom (ReadAll s)
                (FindAllStringSubmatchIndex (ReadAll s))[before.length].m0))))⟩) := by
        simp only [RenameSection, h4, startAt, hm, WriteAll, List.append_assoc]
      rw [hren]
      exact splice_preamble _ _ _ _ hm

/-- Claim C14. `ComputeETag` leaves the store as it is and depends on the text
of the notebook only: two successive calls give the same value, stores with
the same text (the never-written notebook and the empty one among them) give
the same value, and the value is the hexadecimal form of the 32-byte digest of
the text, 64 characters among `0-9` and `a-f`. -/
theorem ComputeETag_stable (Sum256 : Text → Digest) (s : Store) :
    ∃ etag, ComputeETag Sum256 s = (.ok etag, s) ∧
      ComputeETag Sum256 (ComputeETag Sum256 s).2 = (.ok etag, s) ∧
      (∀ s1, ReadAll s1 = ReadAll s → (ComputeETag Sum256 s1).1 = .ok etag) ∧
      (ComputeETag Sum256 ⟨none⟩).1 = (ComputeETag Sum256 ⟨some []⟩).1 ∧
      etag = EncodeToString (List.ofFn (Sum256 (ReadAll s))) ∧
      etag.length = 64 ∧ ∀ c ∈ etag, c ∈ "0123456789abcdef".toList := by
  refine ⟨EncodeToString (List.ofFn (Sum256 (ReadAll s))), rfl, rfl, ?_, rfl, rfl, ?_, ?_⟩
  · intro s1 h1
    unfold ComputeETag
    rw [h1]
  · rw [EncodeToString_length, List.length_ofFn]
  · exact EncodeToString_hex _

/-- Claim C16, as stated, fails. In the text `##`, tab, `A` and in the text
`##`, line feed, `A` no line begins with `##` and one space, so neither holds a
heading line in the sense of the specification, and `ListPages` returns the
page `A` for both. -/
theorem ListPages_no_heading_counterexample :
    (∀ l ∈ "##\tA\n".toList.splitOn LF, specTitle l = none) ∧
    ListPages ⟨some "##\tA\n".toList⟩ = (.ok ["A".toList], ⟨some "##\tA\n".toList⟩) ∧
    (∀ l ∈ "##\nA\n".toList.splitOn LF, specTitle l = none) ∧
    ListPages ⟨some "##\nA\n".toList⟩ = (.ok ["A".toList], ⟨some "##\nA\n".toList⟩) := by
  simp only [ListPages, Prod.mk.injEq, Except.ok.injEq, and_true]
  decide

/-- Claim C16, amended. The notebook that was never written reads as the empty
text, and `ListPages` succeeds with no title on every notebook none of whose
lines begins with `##` and a whitespace character and none of whose lines,
the last one apart, is `##` alone; the empty and the never-written notebook
are among them. -/
theorem ListPages_no_marker_line (s : Store) (h : NoMarkerLine (ReadAll s)) :
    ReadAll ⟨none⟩ = [] ∧ ListPages s = (.ok [], s) ∧
    ListPages ⟨none⟩ = (.ok [], ⟨none⟩) ∧ ListPages ⟨some []⟩ = (.ok [], ⟨some []⟩) := by
  refine ⟨rfl, ?_, rfl, rfl⟩
  unfold ListPages
  rw [noMarker_sections _ h]
  rfl

theorem ListPages_no_marker_line_witness :
    ListPages ⟨some "# Notebook\n\ntext ## no heading\n#\n###\n##x\n##".toList⟩ =
      (.ok [], ⟨some "# Notebook\n\ntext ## no heading\n#\n###\n##x\n##".toList⟩) :=
  (ListPages_no_marker_line ⟨some "# Notebook\n\ntext ## no heading\n#\n###\n##x\n##".toList⟩
    (by decide)).2.1

/-- Claim C17. A title returned by `SplitSections` has no line feed, and it is
empty or begins with a character that is not whitespace: the run of whitespace
after `##` takes all the whitespace, line feeds included, before the title
starts. -/
theorem titles_shape (md : Text) (sec : Section) (h : sec ∈ SplitSections md) :
    LF ∉ sec.Title ∧
    (sec.Title = [] ∨ ∃ c r, sec.Title = c :: r ∧ isSpace c = false) := by
  obtain ⟨j, hj⟩ := List.mem_iff_getElem?.1 h
  have hlt : j < (FindAllStringSubmatchIndex md).length := by
    rw [← SplitSections_length]
    exact (List.getElem?_eq_some.1 hj).1
  have hm := List.getElem?_eq_getElem hlt
  have hs := sectionsOf_getElem? md _ j _ hm
  have hsec : sec.Title = slice md (FindAllStringSubmatchIndex md)[j].m2
      (FindAllStringSubmatchIndex md)[j].m3 := by
    have hs2 : (SplitSections md)[j]? = _ := hs
    rw [hj] at hs2
    rw [Option.some.inj hs2]
  obtain ⟨t1, t2⟩ := match_title md j _ hm
  rw [hsec]
  refine ⟨t1, ?_⟩
  cases ht : slice md (FindAllStringSubmatchIndex md)[j].m2
      (FindAllStringSubmatchIndex md)[j].m3 with
  | nil => exact Or.inl rfl
  | cons c r =>
    right
    exact ⟨c, r, rfl, t2 c (by rw [ht]; rfl)⟩

theorem titles_shape_witness :
    LF ∉ "D ".toList ∧
    ("D ".toList = [] ∨ ∃ c r, "D ".toList = c :: r ∧ isSpace c = false) :=
  titles_shape "## \n## B\n##\tC\n##  D \nfoo".toList ⟨"D ".toList, "\nfoo".toList⟩ (by decide)

/-- Claim C19. When the notebook has a section titled `oldTitle`, the new title
is not empty, has no line feed, does not begin with whitespace and is not the
title of a section before that one, and no line of `html` starts with `##`
followed by whitespace or the end of the line, then after `SavePage oldTitle
newTitle html` the page `newTitle` loads and its content is `"\n\n" ++ html ++
"\n"`. -/
theorem SavePage_then_LoadPage (oldTitle newTitle html : Text) (s : Store)
    (before : List Section) (sec : Section) (rest : List Section)
    (h1 : SplitSections (ReadAll s) = before ++ sec :: rest)
    (h2 : ∀ x ∈ before, x.Title ≠ oldTitle) (h3 : sec.Title = oldTitle)
    (hn : WellFormedTitle newTitle) (hnb : ∀ x ∈ before, x.Title ≠ newTitle)
    (hh : NoHeadingLine html) :
    (SavePage oldTitle newTitle html s).1 = .ok () ∧
    LoadPage newTitle (SavePage oldTitle newTitle html s).2 =
      (.ok ([LF, LF] ++ html ++ [LF]), (SavePage oldTitle newTitle html s).2) := by
  obtain ⟨r1, r2, -⟩ := savePage_sections oldTitle newTitle html s before sec rest h1 h2 h3 hn hh
  refine ⟨r1, ?_⟩
  unfold LoadPage
  rw [r2, lookupContent_first newTitle before ⟨newTitle, [LF, LF] ++ html ++ [LF]⟩ rest hnb rfl]

theorem SavePage_then_LoadPage_witness :
    LoadPage "A".toList (SavePage "B".toList "A".toList "<p>x</p>".toList
      ⟨some "## B\nb\n## A\na\n".toList⟩).2 =
      (.ok ([LF, LF] ++ "<p>x</p>".toList ++ [LF]),
        (SavePage "B".toList "A".toList "<p>x</p>".toList
          ⟨some "## B\nb\n## A\na\n".toList⟩).2) :=
  (SavePage_then_LoadPage "B".toList "A".toList "<p>x</p>".toList
    ⟨some "## B\nb\n## A\na\n".toList⟩ [] ⟨"B".toList, "\nb\n".toList⟩
    [⟨"A".toList, "\na\n".toList⟩] (by decide) (by decide) (by decide) (by decide)
    (by decide) (by decide)).2

/-- Claim C18. `SplitSections`, `SavePage` and `RenameSection` never index or
slice out of range: with the run-time checks of Go written out they return
what the unchecked operations return, for every notebook and all arguments.
There are as many sections as matches; for every match the title span and the
content span are in range, the content starts at or before the next heading,
and the spans `start .. end` of `SavePage` and `start .. lineEnd` of
`RenameSection` lie inside the text. -/
theorem no_out_of_range (oldTitle newTitle html : Text) (s : Store) :
    SplitSectionsChecked (ReadAll s) = some (SplitSections (ReadAll s)) ∧
    SavePageChecked oldTitle newTitle html s = some (SavePage oldTitle newTitle html s) ∧
    RenameSectionChecked oldTitle newTitle s = some (RenameSection oldTitle newTitle s) ∧
    (SplitSections (ReadAll s)).length = (FindAllStringSubmatchIndex (ReadAll s)).length ∧
    ∀ i m, (FindAllStringSubmatchIndex (ReadAll s))[i]? = some m →
      m.m2 ≤ m.m3 ∧ m.m3 ≤ (ReadAll s).length ∧
      m.m1 ≤ (match (FindAllStringSubmatchIndex (ReadAll s))[i + 1]? with
        | some nx => nx.m0
        | none => (ReadAll s).length) ∧
      m.m0 ≤ (match (FindAllStringSubmatchIndex (ReadAll s))[i + 1]? with
        | some nx => nx.m0
        | none => (ReadAll s).length) ∧
      (match (FindAllStringSubmatchIndex (ReadAll s))[i + 1]? with
        | some nx => nx.m0
        | none => (ReadAll s).length) ≤ (ReadAll s).length ∧
      m.m0 ≤ lineEndFrom (ReadAll s) m.m0 ∧
      lineEndFrom (ReadAll s) m.m0 ≤ (ReadAll s).length := by
  have hbounds : ∀ i m, (FindAllStringSubmatchIndex (ReadAll s))[i]? = some m →
      m.m2 ≤ m.m3 ∧ m.m3 ≤ (ReadAll s).length ∧
      m.m1 ≤ (match (FindAllStringSubmatchIndex (ReadAll s))[i + 1]? with
        | some nx => nx.m0
        | none => (ReadAll s).length) ∧
      m.m0 ≤ (match (FindAllStringSubmatchIndex (ReadAll s))[i + 1]? with
        | some nx => nx.m0
        | none => (ReadAll s).length) ∧
      (match (FindAllStringSubmatchIndex (ReadAll s))[i + 1]? with
        | some nx => nx.m0
        | none => (ReadAll s).length) ≤ (ReadAll s).length ∧
      m.m0 ≤ lineEndFrom (ReadAll s) m.m0 ∧
      lineEndFrom (ReadAll s) m.m0 ≤ (ReadAll s).length := by
    intro i m hm
    obtain ⟨b1, b2, b3⟩ := span_bounds (ReadAll s) i m hm
    have hw := findAll_within (ReadAll s) m (List.getElem?_mem hm)
    simp only [Loc.within] at hw
    obtain ⟨l1, l2⟩ := lineEndFrom_bounds (ReadAll s) m.m0 (by omega)
    exact ⟨by omega, by omega, b2, by omega, b3, l1, l2⟩
  refine ⟨SplitSectionsChecked_ok _, ?_, ?_, SplitSections_length _, hbounds⟩
  · unfold SavePageChecked SavePage
    simp only [SplitSectionsChecked_ok]
    by_cases h0 : (SplitSections (ReadAll s)).length = 0
    · simp only [h0, if_true]
    · simp only [h0, if_false]
      rcases findTitle_cases oldTitle (SplitSections (ReadAll s)) 0 with
        ⟨h1, -⟩ | ⟨before, sec, rest, h1, -, -, h4⟩
      · simp only [h1]
      · have hlen : before.length < (FindAllStringSubmatchIndex (ReadAll s)).length := by
          rw [← SplitSections_length, h1]
          simp
        have hm := List.getElem?_eq_getElem hlen
        obtain ⟨-, -, -, c4, c5, -, -⟩ := hbounds _ _ hm
        have hstart : (FindAllStringSubmatchIndex (ReadAll s))[before.length].m0 ≤
            (ReadAll s).length := le_trans c4 c5
        have hhead := sliceChecked_ok (ReadAll s) 0 _ (Nat.zero_le _) hstart
        rw [Nat.zero_add] at h4
        simp only [h4, hm, startAt, endAt]
        by_cases hlt : before.length + 1 < (FindAllStringSubmatchIndex (ReadAll s)).length
        · have hm1 := List.getElem?_eq_getElem hlt
          have hstop : (FindAllStringSubmatchIndex (ReadAll s))[before.length + 1].m0 ≤
              (ReadAll s).length := by
            rw [hm1] at c5
            exact c5
          have htail := sliceChecked_ok (ReadAll s) _ _ hstop (le_refl _)
          simp only [hlt, if_true, hm1, Option.map_some', hhead, htail, slice_head, slice_tail]
        · have htail := sliceChecked_ok (ReadAll s) _ _ (le_refl (ReadAll s).length) (le_refl _)
          simp only [hlt, if_false, hhead, htail, slice_head, slice_tail]
  · unfold RenameSectionChecked RenameSection
    simp only [SplitSectionsChecked_ok]
    rcases findTitle_cases oldTitle (SplitSections (ReadAll s)) 0 with
      ⟨h1, -⟩ | ⟨before, sec, rest, h1, -, -, h4⟩
    · simp only [h1]
    · have hlen : before.length < (FindAllStringSubmatchIndex (ReadAll s)).length := by
        rw [← SplitSections_length, h1]
        simp
      have hm := List.getElem?_eq_getElem hlen
      obtain ⟨-, -, -, -, -, c6, c7⟩ := hbounds _ _ hm
      have hhead := sliceChecked_ok (ReadAll s) 0 _ (Nat.zero_le _) (le_trans c6 c7)
      have htail := sliceChecked_ok (ReadAll s) _ _ c7 (le_refl _)
      rw [Nat.zero_add] at h4
      simp only [h4, hm, startAt, hhead, htail, slice_head, slice_tail]

/-- Claim C20. When the notebook has a section titled `t`, the title `t` is not
empty, has no line feed and does not begin with whitespace, and no line of
`html` starts with `##` followed by whitespace or the end of the line, then
`SavePage t t html` succeeds, succeeds again on the result, and the second
call leaves the store exactly as the first one left it. -/
theorem SavePage_idempotent (t html : Text) (s : Store)
    (hsec : ∃ sec ∈ SplitSections (ReadAll s), sec.Title = t)
    (ht : WellFormedTitle t) (hh : NoHeadingLine html) :
    (SavePage t t html s).1 = .ok () ∧
    (SavePage t t html (SavePage t t html s).2).1 = .ok () ∧
    (SavePage t t html (SavePage t t html s).2).2 = (SavePage t t html s).2 := by
  obtain ⟨sec0, hsec0, ht0⟩ := hsec
  rcases findTitle_cases t (SplitSections (ReadAll s)) 0 with
    ⟨-, hno⟩ | ⟨before, sec, rest, h1, h2, h3, -⟩
  · exact absurd ht0 (hno sec0 hsec0)
  · obtain ⟨a, c, ha, hc, hsa, hsc, hsave⟩ := savePage_text t t html s before sec rest h1 h2 h3
    obtain ⟨x1, x2, x3⟩ := saved_block t html ht hh
    -- the block holds one match, at its start
    obtain ⟨mX, restX, hX1, hX0⟩ := heading_first _ 0 x3
    have hXm : FindAllStringSubmatchIndex (marker ++ t ++ [LF, LF] ++ html ++ [LF]) = [mX] := by
      have hl := SplitSections_length (marker ++ t ++ [LF, LF] ++ html ++ [LF])
      rw [x1] at hl
      have hX1' : FindAllStringSubmatchIndex (marker ++ t ++ [LF, LF] ++ html ++ [LF]) =
          mX :: restX := hX1
      rw [hX1'] at hl ⊢
      simp only [List.length_cons, List.length_nil] at hl
      have : restX.length = 0 := by omega
      rw [List.length_eq_zero.1 this]
    obtain ⟨sp1, sp2⟩ := splice_span a _ c mX ha x2 hXm hX0 hc
    have hk : (FindAllStringSubmatchIndex a).length = before.length := by
      rw [← SplitSections_length, hsa]
    rw [hk] at sp1 sp2
    -- the sections after the first call
    have hsecs : SplitSections (a ++ ((marker ++ t ++ [LF, LF] ++ html ++ [LF]) ++ c)) =
        before ++ ⟨t, [LF, LF] ++ html ++ [LF]⟩ :: rest := by
      have hX : StartsHeading ((marker ++ t ++ [LF, LF] ++ html ++ [LF]) ++ c) := by
        obtain ⟨ch, r, e, hch⟩ := x3
        exact ⟨ch, r ++ c, by rw [e]; rfl, hch⟩
      rw [SplitSections_append _ _ ha (Or.inr hX), SplitSections_append _ _ x2 hc, hsa, x1, hsc]
      rfl
    have hft := findTitle_first t _ before ⟨t, [LF, LF] ++ html ++ [LF]⟩ rest hsecs h2 rfl
    have hne : (SplitSections (a ++ ((marker ++ t ++ [LF, LF] ++ html ++ [LF]) ++ c))).length
        ≠ 0 := by
      rw [hsecs]; simp
    have hagain : SavePage t t html
        ⟨some (a ++ ((marker ++ t ++ [LF, LF] ++ html ++ [LF]) ++ c))⟩ =
        (.ok (), ⟨some (a ++ ((marker ++ t ++ [LF, LF] ++ html ++ [LF]) ++ c))⟩) := by
      have hr : ReadAll ⟨some (a ++ ((marker ++ t ++ [LF, LF] ++ html ++ [LF]) ++ c))⟩ =
          a ++ ((marker ++ t ++ [LF, LF] ++ html ++ [LF]) ++ c) := rfl
      unfold SavePage
      simp only [hr, hne, if_false, hft, sp1, sp2, WriteAll]
      rw [List.take_left, ← List.drop_drop, List.drop_left, List.drop_left]
      simp
    rw [hsave]
    exact ⟨rfl, by rw [hagain], by rw [hagain]⟩

theorem SavePage_idempotent_witness :
    (SavePage "B".toList "B".toList "<p>x</p>".toList
      (SavePage "B".toList "B".toList "<p>x</p>".toList demoStore).2).2 =
    (SavePage "B".toList "B".toList "<p>x</p>".toList demoStore).2 :=
  (SavePage_idempotent "B".toList "<p>x</p>".toList demoStore
    ⟨⟨"B".toList, "\n\n<p>b</p>\n".toList⟩, by decide, rfl⟩ (by decide) (by decide)).2.2

/-- Claim C12, as stated, fails. Inserting into `demoDoc` a title that holds a
line feed and a heading line adds two pages, `X` and `Y`; and inserting the
title `T` into the text `##`, which has no page, gives the one page `## T`,
the marker that ended the text taking the new heading as its title. -/
theorem InsertNewSection_appends_counterexample :
    (SplitSections (ReadAll demoStore)).map Section.Title =
      ["A".toList, "B".toList, "C".toList] ∧
    (SplitSections (ReadAll (InsertNewSection "X\n## Y".toList demoStore).2)).map
      Section.Title = ["A".toList, "B".toList, "C".toList, "X".toList, "Y".toList] ∧
    SplitSections (ReadAll ⟨some "##".toList⟩) = [] ∧
    (SplitSections (ReadAll (InsertNewSection "T".toList ⟨some "##".toList⟩).2)).map
      Section.Title = ["## T".toList] := by
  decide

/-- Claim C12, amended. On a notebook that is not empty and does not end with a
bare `##` marker (a `##` at a line start followed by whitespace only),
inserting a title that is not empty, has no line feed and does not begin with
whitespace, be it the title of an existing section or not, succeeds and appends
one section: `ListPages` returns the former titles followed by the new one,
the new section is the last, and all former sections but the last are as they
were. -/
theorem InsertNewSection_appends (title : Text) (s : Store) (hne : ReadAll s ≠ [])
    (hbm : endsWithBareMarker (ReadAll s) = false) (ht : WellFormedTitle title) :
    (InsertNewSection title s).1 = .ok () ∧
    ListPages (InsertNewSection title s).2 =
      (.ok ((SplitSections (ReadAll s)).map Section.Title ++ [title]),
        (InsertNewSection title s).2) ∧
    (SplitSections (ReadAll (InsertNewSection title s).2))[(SplitSections (ReadAll s)).length]? =
      some ⟨title, [LF, LF] ++ "<p><em>New page.</em></p>".toList ++ [LF]⟩ ∧
    ((SplitSections (ReadAll (InsertNewSection title s).2)).take
      (SplitSections (ReadAll s)).length).dropLast = (SplitSections (ReadAll s)).dropLast := by
  have hb : NoHeadingLine newPageBody := by decide
  obtain ⟨x1, -, x3⟩ := saved_block title newPageBody ht hb
  obtain ⟨A, a1, a2, a3, a4⟩ := insert_sections (ReadAll s) _ _
    (state_of_no_bare_marker _ hbm) x1 x3
  have hpos : (ReadAll s).length > 0 := List.length_pos.2 hne
  have hdoc : InsertNewSection title s = (.ok (), ⟨some (ReadAll s ++
      LF :: LF :: (marker ++ title ++ [LF, LF] ++ newPageBody ++ [LF]))⟩) := by
    simp only [InsertNewSection, hpos, if_true, WriteAll]
    simp
  have hr : ReadAll ⟨some (ReadAll s ++
      LF :: LF :: (marker ++ title ++ [LF, LF] ++ newPageBody ++ [LF]))⟩ =
      ReadAll s ++ LF :: LF :: (marker ++ title ++ [LF, LF] ++ newPageBody ++ [LF]) := rfl
  rw [hdoc]
  dsimp only
  refine ⟨rfl, ?_, ?_, ?_⟩
  · unfold ListPages
    rw [hr, a1, List.map_append, a3]
    rfl
  · rw [hr, a1, ← a2, getElem?_middle]
    rfl
  · rw [hr, a1, List.take_left' a2, a4]

theorem InsertNewSection_appends_witness :
    ListPages (InsertNewSection "B".toList demoStore).2 =
      (.ok (["A".toList, "B".toList, "C".toList] ++ ["B".toList]),
        (InsertNewSection "B".toList demoStore).2) :=
  (InsertNewSection_appends "B".toList demoStore (by decide) (by decide) (by decide)).2.1

end Markupbook
